import Mathlib

/-!
Verification of the `system_properties` shared property store.

This file gives a shallow embedding, in Lean 4, of the parts of the
repository that the specification's claims are about:

* `prop_area.cpp` — the trie of `prop_bt` nodes over dot-separated name
  segments, the bump allocator (`allocate_obj`), `find_property`
  (traversal plus entry lookup/creation), `foreach_property`,
  `prune_trie` and `remove`;
* `prop_info.cpp` — the two `prop_info` constructors (short and long
  form) and the serial word layout;
* `system_properties.cpp` — `Read`, `ReadCallback`, `Get`, `Add`,
  `Update`, `Delete`, `FindNth`;
* `property_info_parser.cpp` — the `BinaryIndex` routing
  (`GetPropertyInfoIndexes`, `CheckPrefixMatch`, `FindChildForString`,
  and the binary search `Find`);
* `system_property_set.cpp` — the v1 wire client result logic of
  `send_prop_msg`.

Strings are modelled as `List Char` without the terminating NUL (a C
string of length n becomes a list of n characters).  The memory-mapped
arena is modelled by an inductive tree (`prop_bt.nil` standing for a zero
offset) together with an explicit allocator state carrying `bytes_used`;
in-place mutation becomes functional rebuilding of the tree along the
mutated path.  The single-writer quiescent behaviour of the reader
protocol is modelled (no interleaving: the serial word is stable during a
read), since concurrent interleavings are outside a shallow embedding.
-/

set_option maxRecDepth 4000

/-- PROP_VALUE_MAX.  Modelled from the spec: the v1 wire message carries
`value: [92]u8` (§4.7) and the API headers that define the constant are
not under `src/`. -/
def PROP_VALUE_MAX : Nat := 92

/-- PROP_NAME_MAX.  Modelled from the spec: the v1 wire message carries
`name: [32]u8` (§4.7). -/
def PROP_NAME_MAX : Nat := 32

/-- Modelled from the spec: size of the fixed part of a `prop_bt` node
(`prop_area.h` is not under `src/`); the exact value is irrelevant to the
claims (only monotonicity and 4-alignment of the allocator matter). -/
def SIZEOF_PROP_BT : Nat := 20

/-- Modelled from the spec: size of the fixed part of a `prop_info`
entry (`prop_info.h` is not under `src/`). -/
def SIZEOF_PROP_INFO : Nat := 96

/-- Modelled from the spec: the long-form flag bit in the initial serial
word ("distinguished by a flag bit in the initial serial", §3);
`prop_info.h` is not under `src/`. -/
def kLongFlag : Nat := 1 <<< 16

/-- The embedded legacy error string for long properties
(`prop_info.cpp`). -/
def kLongLegacyError : List Char :=
  "Must use __system_property_read_callback() to read".toList

/-- strcmp on NUL-free character lists (a shorter string compares below
any proper extension, as the NUL byte is smaller than every character). -/
def cmpCharList : List Char → List Char → Int
  | [], [] => 0
  | [], _ :: _ => -1
  | _ :: _, [] => 1
  | a :: as, b :: bs => if a < b then -1 else if b < a then 1 else cmpCharList as bs

/-- strncmp on character lists: compare at most `n` characters. -/
def strncmpL (a b : List Char) (n : Nat) : Int :=
  cmpCharList (a.take n) (b.take n)

/-- `cmp_prop_name` from `prop_area.cpp`: order first by length, then by
`strncmp` over the (equal) length. -/
def cmp_prop_name (one two : List Char) : Int :=
  if one.length < two.length then -1
  else if two.length < one.length then 1
  else strncmpL one two one.length

/-- Segmentation of a property name by `'.'`, exactly as the repeated
`strchr(remaining_name, '.')` of `traverse_trie` produces it: empty
segments (leading, trailing or doubled dots) appear as `[]` elements. -/
def splitName : List Char → List (List Char)
  | [] => [[]]
  | ch :: rest =>
    if ch = '.' then [] :: splitName rest
    else
      match splitName rest with
      | [] => [[ch]]
      | s :: ss => (ch :: s) :: ss

/-- Join segments back with dots (left inverse of `splitName`). -/
def joinName : List (List Char) → List Char
  | [] => []
  | [s] => s
  | s :: rest => s ++ '.' :: joinName rest

/-- A property entry (`prop_info`).  `value` is the inline value buffer
(for a long entry it holds the embedded legacy error string, as the C
union overlays `long_property.error_message` on `value`); `long_data` is
the out-of-line long value blob, `none` for short entries. -/
structure prop_info where
  name : List Char
  serial : Nat
  value : List Char
  long_data : Option (List Char)
deriving DecidableEq, Repr

/-- The short-form `prop_info` constructor (`prop_info.cpp` lines
40-46): serial encodes the value length in bits 31..24. -/
def prop_info.mkShort (name value : List Char) : prop_info :=
  { name := name, serial := value.length <<< 24, value := value, long_data := none }

/-- The long-form `prop_info` constructor (`prop_info.cpp` lines 49-58):
serial encodes the legacy error string's length and the long flag; the
inline buffer holds the legacy error string. -/
def prop_info.mkLong (name longv : List Char) : prop_info :=
  { name := name
    serial := (kLongLegacyError.length <<< 24) ||| kLongFlag
    value := kLongLegacyError
    long_data := some longv }

/-- `prop_info::is_long()`: the long flag bit of the serial word. -/
def prop_info.is_long (pi : prop_info) : Bool :=
  pi.serial &&& kLongFlag != 0

/-- `prop_info::long_value()`: the out-of-line blob. -/
def prop_info.long_value (pi : prop_info) : List Char :=
  pi.long_data.getD []

/-- A trie node (`prop_bt`): `nil` models a zero offset, `node` a
published node with its inline name segment and the three child offsets
plus the entry offset. -/
inductive prop_bt : Type where
  | nil : prop_bt
  | node (name : List Char) (prop : Option prop_info)
      (left children right : prop_bt) : prop_bt
deriving DecidableEq, Repr

/-- Allocator state of a `prop_area`: the bump pointer `bytes_used_` and
the capacity `pa_data_size_`. -/
structure AllocState where
  bytes_used : Nat
  pa_data_size : Nat
deriving DecidableEq, Repr

/-- `__BIONIC_ALIGN(size, sizeof(uint_least32_t))`: round up to a
multiple of 4 (the mask form `(size + 3) & ~3` on non-negative sizes). -/
def bionic_align4 (n : Nat) : Nat := (n + 3) / 4 * 4

/-- `prop_area::allocate_obj`: bump allocation, failing (state
unchanged) when the aligned size does not fit. -/
def allocate_obj (a : AllocState) (size : Nat) : AllocState × Option Nat :=
  let aligned := bionic_align4 size
  if a.bytes_used + aligned > a.pa_data_size then (a, none)
  else ({ a with bytes_used := a.bytes_used + aligned }, some a.bytes_used)

/-- `prop_area::new_prop_bt`: allocate and zero-construct a node with
the given name segment. -/
def new_prop_bt (a : AllocState) (name : List Char) : AllocState × Option prop_bt :=
  match allocate_obj a (SIZEOF_PROP_BT + name.length + 1) with
  | (a2, some _) => (a2, some (.node name none .nil .nil .nil))
  | (a2, none) => (a2, none)

/-- `prop_area::new_prop_info`: allocate the entry, then (for a value of
length ≥ PROP_VALUE_MAX) the out-of-line blob, constructing the long or
the short form.  On blob-allocation failure the entry's bytes stay
consumed, as in the source. -/
def new_prop_info (a : AllocState) (name value : List Char) :
    AllocState × Option prop_info :=
  match allocate_obj a (SIZEOF_PROP_INFO + name.length + 1) with
  | (a2, none) => (a2, none)
  | (a2, some _) =>
    if value.length ≥ PROP_VALUE_MAX then
      match allocate_obj a2 (value.length + 1) with
      | (a3, none) => (a3, none)
      | (a3, some _) => (a3, some (prop_info.mkLong name value))
    else (a2, some (prop_info.mkShort name value))

/-- The type of "rest of the traversal" continuations: what
`traverse_trie`'s loop does after `find_prop_bt` has returned the node
for the current segment.  A continuation receives the node and the
allocator, and returns the updated node, the updated allocator and the
resulting entry (if any). -/
abbrev TrieCont := prop_bt → AllocState → prop_bt × AllocState × Option prop_info

/-- `prop_area::find_prop_bt`: binary-search-tree walk over one segment
level, ordered by `cmp_prop_name`; with `allocIf` a missing node is
allocated and linked in place of the zero offset.  The continuation `k`
is applied at the node whose name equals `seg` (the node `find_prop_bt`
returns in the source), and the updated node is written back along the
search path. -/
def find_prop_bt (allocIf : Bool) (seg : List Char) (k : TrieCont) :
    prop_bt → AllocState → prop_bt × AllocState × Option prop_info
  | .nil, a => (.nil, a, none)
  | .node nm pr l c r, a =>
    let ret := cmp_prop_name seg nm
    if ret = 0 then k (.node nm pr l c r) a
    else if ret < 0 then
      match l with
      | .node .. =>
        let res := find_prop_bt allocIf seg k l a
        (.node nm pr res.1 c r, res.2.1, res.2.2)
      | .nil =>
        if allocIf then
          match new_prop_bt a seg with
          | (a2, some fresh) =>
            let res := k fresh a2
            (.node nm pr res.1 c r, res.2.1, res.2.2)
          | (a2, none) => (.node nm pr l c r, a2, none)
        else (.node nm pr l c r, a, none)
    else
      match r with
      | .node .. =>
        let res := find_prop_bt allocIf seg k r a
        (.node nm pr l c res.1, res.2.1, res.2.2)
      | .nil =>
        if allocIf then
          match new_prop_bt a seg with
          | (a2, some fresh) =>
            let res := k fresh a2
            (.node nm pr l c res.1, res.2.1, res.2.2)
          | (a2, none) => (.node nm pr l c r, a2, none)
        else (.node nm pr l c r, a, none)

/-- One iteration of `prop_area::traverse_trie`'s loop at node
`current` for segment `seg`: reject an empty segment, get or allocate
the `children` root, search it with `find_prop_bt`, and continue with
`k` at the found node. -/
def traverse_step (allocIf : Bool) (seg : List Char) (k : TrieCont) : TrieCont :=
  fun t a =>
  match t with
  | .nil => (.nil, a, none)
  | .node nm pr l c r =>
    if seg.length = 0 then (.node nm pr l c r, a, none)
    else
      match c with
      | .node .. =>
        let res := find_prop_bt allocIf seg k c a
        (.node nm pr l res.1 r, res.2.1, res.2.2)
      | .nil =>
        if allocIf then
          match new_prop_bt a seg with
          | (a2, some fresh) =>
            let res := find_prop_bt allocIf seg k fresh a2
            (.node nm pr l res.1 r, res.2.1, res.2.2)
          | (a2, none) => (.node nm pr l c r, a2, none)
        else (.node nm pr l c r, a, none)

/-- The tail of `prop_area::find_property` after `traverse_trie` has
returned the terminal node: return the existing entry, or (with
`allocIf`) allocate a new one and publish it in the `prop` slot. -/
def prop_end (allocIf : Bool) (name value : List Char) : TrieCont :=
  fun t a =>
  match t with
  | .nil => (.nil, a, none)
  | .node nm pr l c r =>
    match pr with
    | some pi => (.node nm pr l c r, a, some pi)
    | none =>
      if allocIf then
        match new_prop_info a name value with
        | (a2, some pi) => (.node nm (some pi) l c r, a2, some pi)
        | (a2, none) => (.node nm pr l c r, a2, none)
      else (.node nm pr l c r, a, none)

/-- `prop_area::find_property` (traversal over all segments of `name`
composed with the entry step), starting at the area's root node. -/
def find_property (allocIf : Bool) (name value : List Char)
    (t : prop_bt) (a : AllocState) : prop_bt × AllocState × Option prop_info :=
  (splitName name).foldr (traverse_step allocIf) (prop_end allocIf name value) t a

namespace prop_area

/-- `prop_area::find`: lookup without allocating. -/
def find (t : prop_bt) (name : List Char) : Option prop_info :=
  (find_property false name [] t { bytes_used := 0, pa_data_size := 0 }).2.2

/-- `prop_area::add`: lookup-or-create; returns the updated tree, the
updated allocator, and the entry (`none` meaning `add` returned false). -/
def add (t : prop_bt) (a : AllocState) (name value : List Char) :
    prop_bt × AllocState × Option prop_info :=
  find_property true name value t a

/-- `prop_area::foreach_property`: the sequence of entries passed to the
callback, in left, self, children, right order. -/
def foreach_property : prop_bt → List prop_info
  | .nil => []
  | .node _ pr l c r =>
    foreach_property l ++ (match pr with | some pi => [pi] | none => []) ++
      foreach_property c ++ foreach_property r

/-- Number of nodes of the trie carrying an entry. -/
def countProps : prop_bt → Nat
  | .nil => 0
  | .node _ pr l c r =>
    countProps l + (match pr with | some _ => 1 | none => 0) +
      countProps c + countProps r

/-- `prop_area::prune_trie`: post-order pass; `none` means the node was
wiped and detached (it had no entry and all three subtrees pruned away),
otherwise the node with its pruned subtrees. -/
def prune_trie : prop_bt → Option prop_bt
  | .nil => none
  | .node nm pr l c r =>
    let cR : prop_bt × Bool :=
      match c with
      | .nil => (.nil, true)
      | .node .. =>
        match prune_trie c with
        | none => (.nil, true)
        | some c2 => (c2, false)
    let lR : prop_bt × Bool :=
      match l with
      | .nil => (.nil, true)
      | .node .. =>
        match prune_trie l with
        | none => (.nil, true)
        | some l2 => (l2, false)
    let rR : prop_bt × Bool :=
      match r with
      | .nil => (.nil, true)
      | .node .. =>
        match prune_trie r with
        | none => (.nil, true)
        | some r2 => (r2, false)
    if cR.2 && lR.2 && rR.2 && pr.isNone then none
    else some (.node nm pr lR.1 cR.1 rR.1)

/-- The terminal action of `prop_area::remove`: detach the entry from
the terminal node (release-store zero into `prop`) and report it. -/
def remove_end : TrieCont :=
  fun t a =>
  match t with
  | .nil => (.nil, a, none)
  | .node nm pr l c r =>
    match pr with
    | some pi => (.node nm none l c r, a, some pi)
    | none => (.node nm pr l c r, a, none)

/-- `prop_area::remove`: traverse (without allocating) to the terminal
node, clear its entry, and optionally prune the trie from the root.  A
root wiped by `prune_trie` is the all-zero node. -/
def remove (t : prop_bt) (name : List Char) (prune : Bool) : prop_bt × Bool :=
  let res := (splitName name).foldr (traverse_step false) remove_end t
    { bytes_used := 0, pa_data_size := 0 }
  match res.2.2 with
  | none => (res.1, false)
  | some _ =>
    (if prune then
      match prune_trie res.1 with
      | none => .node [] none .nil .nil .nil
      | some t2 => t2
    else res.1, true)

end prop_area

/-- Pure binary-search-tree lookup of one segment (the `allocIf = false`
path of `find_prop_bt`), returning the matched node. -/
def findBst (seg : List Char) : prop_bt → Option prop_bt
  | .nil => none
  | .node nm pr l c r =>
    let ret := cmp_prop_name seg nm
    if ret = 0 then some (.node nm pr l c r)
    else if ret < 0 then findBst seg l
    else findBst seg r

/-- Pure traversal to the terminal node for a segment list (the
`allocIf = false` path of `traverse_trie`). -/
def navPure : List (List Char) → prop_bt → Option prop_bt
  | [], t => some t
  | seg :: rest, t =>
    match t with
    | .nil => none
    | .node _ _ _ c _ =>
      if seg.length = 0 then none
      else
        match findBst seg c with
        | some m => navPure rest m
        | none => none

/-- Pure lookup: the entry at the terminal node of the traversal. -/
def findPure (segs : List (List Char)) (t : prop_bt) : Option prop_info :=
  match navPure segs t with
  | some (.node _ pr _ _ _) => pr
  | _ => none

/-- `SERIAL_DIRTY` from `system_properties.cpp`: bit 0 of the serial
word. -/
def SERIAL_DIRTY (s : Nat) : Bool := s &&& 1 != 0

/-- `SERIAL_VALUE_LEN`: bits 31..24 of the serial word. -/
def SERIAL_VALUE_LEN (s : Nat) : Nat := s >>> 24

/-- `is_read_only` from `system_properties.cpp`: names beginning with
`"ro."`. -/
def is_read_only (name : List Char) : Bool :=
  strncmpL name "ro.".toList 3 == 0

/-- The per-writer state of a single-area `SystemProperties` instance:
the area's trie and allocator, the area's dirty-backup buffer, the
global serial word, and the two init-time flags.  (The claims under
verification all route to a single area, so the context router is not
modelled here.) -/
structure SysState where
  root : prop_bt
  alloc : AllocState
  dirty_backup : List Char
  serial_pa : Nat
  initialized : Bool
  rw : Bool
deriving DecidableEq, Repr

/-- `SystemProperties::ReadMutablePropertyValue` in the single-writer
quiescent case (the serial word does not change during the read, so the
loop runs once): copy `len + 1` bytes from the dirty backup when the
dirty bit is set, else from the inline value, and return the copied
string and the serial. -/
def ReadMutablePropertyValue (pi : prop_info) (backup : List Char) :
    List Char × Nat :=
  let serial := pi.serial
  let len := SERIAL_VALUE_LEN serial
  let v := if SERIAL_DIRTY serial then backup.take len else pi.value.take len
  (v, serial)

namespace SystemProperties

/-- `SystemProperties::Read` (value out-parameter and returned length;
the optional name copy is omitted as it only feeds a log message). -/
def Read (pi : prop_info) (backup : List Char) : List Char × Nat :=
  let res := ReadMutablePropertyValue pi backup
  (res.1, SERIAL_VALUE_LEN res.2)

/-- `SystemProperties::ReadCallback`: the `(name, value, serial)` triple
passed to the callback; read-only entries are read in place (long form
via the out-of-line blob), others through
`ReadMutablePropertyValue`. -/
def ReadCallback (pi : prop_info) (backup : List Char) :
    List Char × List Char × Nat :=
  if is_read_only pi.name then
    let serial := pi.serial
    if pi.is_long then (pi.name, pi.long_value, serial)
    else (pi.name, pi.value, serial)
  else
    let res := ReadMutablePropertyValue pi backup
    (pi.name, res.1, res.2)

/-- `SystemProperties::Find` on the single-area state. -/
def Find (st : SysState) (name : List Char) : Option prop_info :=
  if !st.initialized then none
  else prop_area.find st.root name

/-- `SystemProperties::Get`: `Find` then `Read`; `([], 0)` when the
name is not found. -/
def Get (st : SysState) (name : List Char) : List Char × Nat :=
  match Find st name with
  | some pi => Read pi st.dirty_backup
  | none => ([], 0)

/-- `SystemProperties::Add`: guards, then `prop_area::add`; on success
the global serial is bumped.  The updated state is returned also on
failure, since a failing `prop_area::add` may still have allocated trie
nodes. -/
def Add (st : SysState) (name value : List Char) : SysState × Bool :=
  if value.length ≥ PROP_VALUE_MAX && !is_read_only name then (st, false)
  else if name.length < 1 then (st, false)
  else if !st.initialized then (st, false)
  else if !st.rw then (st, false)
  else
    let res := prop_area.add st.root st.alloc name value
    match res.2.2 with
    | none => ({ st with root := res.1, alloc := res.2.1 }, false)
    | some _ =>
      let st2 := { st with root := res.1, alloc := res.2.1, serial_pa := (st.serial_pa + 1) % 2 ^ 32 }
      (st2, true)

/-- `SystemProperties::Delete`: guards, then `prop_area::remove`; on
success the global serial is bumped. -/
def Delete (st : SysState) (name : List Char) (prune : Bool) : SysState × Bool :=
  if !st.initialized then (st, false)
  else if !st.rw then (st, false)
  else
    let res := prop_area.remove st.root name prune
    if res.2 then
      ({ st with root := res.1, serial_pa := (st.serial_pa + 1) % 2 ^ 32 }, true)
    else ({ st with root := res.1 }, false)

/-- `SystemProperties::Update` on an entry: the guards, the dirty-bit
protocol, and the final serial word `(len << 24) | ((serial + 1) &
0xffffff)` where `serial` carries the dirty bit.  Returns the updated
entry, the area's dirty-backup contents, and the bumped global serial,
or `none` on failure (`-1`). -/
def Update (initialized rw : Bool) (pi : prop_info) (serial_pa : Nat)
    (value : List Char) : Option (prop_info × List Char × Nat) :=
  let len := value.length
  if len ≥ PROP_VALUE_MAX then none
  else if !initialized then none
  else if !rw then none
  else
    let serial := pi.serial
    let old_len := SERIAL_VALUE_LEN serial
    let backup := pi.value.take old_len
    let serialDirty := serial ||| 1
    let newValue := value.take len
    let serial2 := (len <<< 24) ||| ((serialDirty + 1) &&& 16777215)
    some ({ pi with serial := serial2, value := newValue }, backup,
      (serial_pa + 1) % 2 ^ 32)

/-- `SystemProperties::Foreach` over the accessible areas: the
concatenated per-area callback sequences. -/
def Foreach (areas : List prop_bt) : List prop_info :=
  (areas.map prop_area.foreach_property).flatten

/-- The `find_nth` callback state machine of
`SystemProperties::FindNth`, folded over the callback sequence. -/
def find_nth_fn (sought : Nat) (entries : List prop_info) : Option prop_info :=
  (entries.foldl
    (fun st pi => (st.1 + 1, if st.1 = sought then some pi else st.2))
    ((0 : Nat), (none : Option prop_info))).2

/-- `SystemProperties::FindNth`: run the `find_nth` callback over
`Foreach`. -/
def FindNth (areas : List prop_bt) (n : Nat) : Option prop_info :=
  find_nth_fn n (Foreach areas)

end SystemProperties

/-- POLLHUP.  Modelled from the spec: the v1 client polls for the daemon
closing the socket (`poll.h` is not part of the repository). -/
def POLLHUP : Nat := 16

/-- `sizeof(prop_msg)` for the v1 wire message
`{cmd: u32, name: [32]u8, value: [92]u8}`. -/
def PROP_MSG_SIZE : Nat := 4 + PROP_NAME_MAX + PROP_VALUE_MAX

/-- The result logic of `send_prop_msg` (`system_property_set.cpp` lines
198-236) after the connection succeeded: `result` starts at `-1`; once
the full message was sent, a poll observing POLLHUP yields 0 and any
other poll outcome (timeout included) is also treated as success 0. -/
def send_prop_msg_result (num_bytes : Int) (poll_result : Int)
    (revents : Nat) : Int :=
  if num_bytes = (PROP_MSG_SIZE : Int) then
    if poll_result = 1 && revents &&& POLLHUP != 0 then 0 else 0
  else -1

/-- The `~0u` sentinel of the BinaryIndex ("no context/type here"). -/
def NO_INDEX : Nat := 4294967295

/-- A prefix entry of a BinaryIndex trie node. -/
structure PrefixEntry where
  name : List Char
  context_index : Nat
  type_index : Nat
deriving Repr

/-- An exact-match leaf of a BinaryIndex trie node. -/
structure ExactMatchEntry where
  name : List Char
  context_index : Nat
  type_index : Nat
deriving Repr

/-- A BinaryIndex trie node (`TrieNode` of `property_info_parser`):
optional context/type indices, the sorted child array, the exact-match
leaves and the prefix entries. -/
inductive TrieNode : Type where
  | mk (name : List Char) (context_index type_index : Nat)
      (child_nodes : List TrieNode) (exact_matches : List ExactMatchEntry)
      (prefix_entries : List PrefixEntry) : TrieNode

def TrieNode.name : TrieNode → List Char
  | .mk nm _ _ _ _ _ => nm

def TrieNode.context_index : TrieNode → Nat
  | .mk _ ci _ _ _ _ => ci

def TrieNode.type_index : TrieNode → Nat
  | .mk _ _ ti _ _ _ => ti

def TrieNode.child_nodes : TrieNode → List TrieNode
  | .mk _ _ _ cs _ _ => cs

def TrieNode.exact_matches : TrieNode → List ExactMatchEntry
  | .mk _ _ _ _ es _ => es

def TrieNode.prefix_entries : TrieNode → List PrefixEntry
  | .mk _ _ _ _ _ ps => ps

/-- The anonymous binary search `Find` of `property_info_parser.cpp`
(lines 33-46): `bottom`/`top` walk as in the source; the comparison
function returns an `int`. -/
def binary_find (f : Int → Int) (bottom top : Int) : Option Int :=
  if bottom ≤ top then
    let search := (top + bottom) / 2
    let cmp := f search
    if cmp = 0 then some search
    else if cmp < 0 then binary_find f (search + 1) top
    else binary_find f bottom (search - 1)
  else none
termination_by (top + 1 - bottom).toNat
decreasing_by
  all_goals omega

/-- `TrieNode::FindChildForString`: binary search of the child array
with the `strncmp` comparator that rejects proper-prefix matches by
returning 1. -/
def TrieNode.FindChildForString (node : TrieNode) (seg : List Char) :
    Option TrieNode :=
  let children := node.child_nodes
  let f : Int → Int := fun i =>
    let child_name := ((children.get? i.toNat).map TrieNode.name).getD []
    let cmp := strncmpL child_name seg seg.length
    if cmp = 0 && seg.length < child_name.length then 1 else cmp
  match binary_find f 0 ((children.length : Int) - 1) with
  | some i => children.get? i.toNat
  | none => none

/-- `PropertyInfoArea::CheckPrefixMatch`: scan the node's prefix entries
in order; the first whose name is an initial segment of
`remaining_name` updates the accumulated context/type indices (when not
`~0u`) and stops the scan. -/
def CheckPrefixMatch (remaining_name : List Char) (node : TrieNode)
    (ci ti : Nat) : Nat × Nat :=
  match node.prefix_entries.find? (fun p =>
      p.name.length ≤ remaining_name.length &&
        strncmpL p.name remaining_name p.name.length == 0) with
  | some p =>
    (if p.context_index ≠ NO_INDEX then p.context_index else ci,
     if p.type_index ≠ NO_INDEX then p.type_index else ti)
  | none => (ci, ti)

/-- The leaf processing of `GetPropertyInfoIndexes` after the descent
loop exits: try the exact matches (a linear scan with `strcmp`), else a
final `CheckPrefixMatch`, else the accumulated indices. -/
def trieLeafIndexes (node : TrieNode) (remaining_name : List Char)
    (ci ti : Nat) : Nat × Nat :=
  match node.exact_matches.find? (fun e => cmpCharList e.name remaining_name == 0) with
  | some e =>
    (if e.context_index ≠ NO_INDEX then e.context_index else ci,
     if e.type_index ≠ NO_INDEX then e.type_index else ti)
  | none => CheckPrefixMatch remaining_name node ci ti

/-- The descent loop of `PropertyInfoArea::GetPropertyInfoIndexes` over
the dot-separated segments: at each node apply the node's indices and
its prefix entries against the remaining name, then descend into the
matching child; on the last segment, or when no child matches, run the
leaf processing on the remaining name. -/
def trieWalkIndexes (node : TrieNode) (ci ti : Nat) :
    List (List Char) → Nat × Nat
  | [] => (ci, ti)
  | seg :: rest =>
    let remaining := joinName (seg :: rest)
    let ci2 := if node.context_index ≠ NO_INDEX then node.context_index else ci
    let ti2 := if node.type_index ≠ NO_INDEX then node.type_index else ti
    let acc := CheckPrefixMatch remaining node ci2 ti2
    match rest with
    | [] => trieLeafIndexes node seg acc.1 acc.2
    | _ :: _ =>
      match node.FindChildForString seg with
      | some child => trieWalkIndexes child acc.1 acc.2 rest
      | none => trieLeafIndexes node remaining acc.1 acc.2

/-- `PropertyInfoArea::GetPropertyInfoIndexes`: start at the root with
both accumulators at `~0u`. -/
def GetPropertyInfoIndexes (root : TrieNode) (name : List Char) : Nat × Nat :=
  trieWalkIndexes root NO_INDEX NO_INDEX (splitName name)

/-- A writer-side area operation for the allocator-monotonicity claim:
`prop_area::add` (whatever its outcome) or `prop_area::remove` (with or
without pruning). -/
inductive AreaOp : Type where
  | add (name value : List Char) : AreaOp
  | remove (name : List Char) (prune : Bool) : AreaOp

/-- Apply one operation to an area (trie plus allocator).  `remove`
never touches the allocator, mirroring the source, where neither
`remove` nor `prune_trie` mentions `bytes_used_`. -/
def applyAreaOp : prop_bt × AllocState → AreaOp → prop_bt × AllocState
  | (t, a), .add name value =>
    let res := prop_area.add t a name value
    (res.1, res.2.1)
  | (t, a), .remove name prune => ((prop_area.remove t name prune).1, a)

/-- Run a sequence of area operations. -/
def runAreaOps (s : prop_bt × AllocState) (ops : List AreaOp) : prop_bt × AllocState :=
  ops.foldl applyAreaOp s

/-- The scenario-E BinaryIndex leaf: node for segment `ctl` with the
exact match `start` carrying context label 9. -/
def ctlChildNode : TrieNode :=
  .mk "ctl".toList NO_INDEX NO_INDEX [] [⟨"start".toList, 9, NO_INDEX⟩] []

/-- The scenario-E BinaryIndex root: the `ctl.` prefix entry carries
context label 7, and the single child is `ctlChildNode`. -/
def ctlRootNode : TrieNode :=
  .mk [] NO_INDEX NO_INDEX [ctlChildNode] [] [⟨"ctl.".toList, 7, NO_INDEX⟩]

/-- Spec-side accumulator update ("updating the current best
(context_index, type_index) at every node carrying one and at every
matching prefix entry"): the node's own indices override the best when
present, then the node's matching prefix entry does. -/
def nodeAccumSpec (best : Nat × Nat) (node : TrieNode) (remaining : List Char) : Nat × Nat :=
  let ci := if node.context_index ≠ NO_INDEX then node.context_index else best.1
  let ti := if node.type_index ≠ NO_INDEX then node.type_index else best.2
  CheckPrefixMatch remaining node ci ti

/-- Spec-side descent ("walk the BinaryIndex trie segment by segment"):
the sequence of (node, remaining name) pairs the walk visits, ending at
the leaf — the node of the final segment, or the node where no child
matches the next segment. -/
def descentPathSpec (node : TrieNode) : List (List Char) → List (TrieNode × List Char)
  | [] => []
  | seg :: rest =>
    match rest with
    | [] => [(node, seg)]
    | _ :: _ =>
      (node, joinName (seg :: rest)) ::
        (match node.FindChildForString seg with
         | some child => descentPathSpec child rest
         | none => [])

/-- Spec-side accumulation over a visited path: fold the per-node update
left to right, so the most recent match wins. -/
def bestOfSpec (b : Nat × Nat) (path : List (TrieNode × List Char)) : Nat × Nat :=
  path.foldl (fun b2 p => nodeAccumSpec b2 p.1 p.2) b

/-- Spec-side leaf rule ("at the leaf, test exact matches first, then
remaining prefixes"): an exact match on the remaining name returns its
indices (the accumulated best standing in for a `~0u` field), otherwise
the remaining prefixes are checked and the accumulated best returned. -/
def routeLeafSpec (node : TrieNode) (remaining : List Char) (best : Nat × Nat) : Nat × Nat :=
  match node.exact_matches.find? (fun e => cmpCharList e.name remaining == 0) with
  | some e =>
    (if e.context_index ≠ NO_INDEX then e.context_index else best.1,
     if e.type_index ≠ NO_INDEX then e.type_index else best.2)
  | none => CheckPrefixMatch remaining node best.1 best.2

/-- Spec-side routing, transcribed from the spec's description of
`GetPropertyInfoIndexes` (to be compared with the source-derived
definition): compute the descent path, accumulate the current best over
it starting from `~0u`, and apply the leaf rule at the last visited
node. -/
def routeSpec (root : TrieNode) (name : List Char) : Nat × Nat :=
  let path := descentPathSpec root (splitName name)
  match path.getLast? with
  | some lf => routeLeafSpec lf.1 lf.2 (bestOfSpec (NO_INDEX, NO_INDEX) path)
  | none => (NO_INDEX, NO_INDEX)

/-- A second C4 index: the `a` node carries context label 5 and an exact
match `b` whose own indices are `~0u`. -/
def demoLeafNode : TrieNode :=
  .mk "a".toList 5 NO_INDEX [] [⟨"b".toList, NO_INDEX, NO_INDEX⟩] []

/-- Root of the second C4 index: prefix entry `a.` carries context label
3, overridden during the descent by the `a` node's label 5. -/
def demoRootNode : TrieNode :=
  .mk [] NO_INDEX NO_INDEX [demoLeafNode] [] [⟨"a.".toList, 3, NO_INDEX⟩]

/-- The freshly created root node of an area (`prop_area`'s constructor
places `prop_bt("", 0)` at data offset 0). -/
def emptyRootNode : prop_bt := .node [] none .nil .nil .nil

/-- A freshly initialised read-write single-area state (128 KiB area
minus the header). -/
def initSysState : SysState :=
  { root := emptyRootNode
    alloc := { bytes_used := 0, pa_data_size := 130816 }
    dirty_backup := []
    serial_pa := 0
    initialized := true
    rw := true }

/-- The concrete entry used by the C2 witness. -/
def c2pi : prop_info := prop_info.mkShort ['a'] ['x']

/-- The expected output of `Update` on `c2pi` with value `"yy"`. -/
def c2res : prop_info × List Char × Nat :=
  ({ name := ['a'], serial := 33554434, value := ['y', 'y'], long_data := none },
    ['x'], 1)

/-- The entry slot of a node (`none` for a zero offset). -/
def propOf : prop_bt → Option prop_info
  | .nil => none
  | .node _ pr _ _ _ => pr

/-- Clear the entry slot of a node (what `remove` stores into the
terminal node). -/
def removeProp : prop_bt → prop_bt
  | .nil => .nil
  | .node nm _ l c r => .node nm none l c r

/-- Apply `f` at the node `findBst seg` would return, rebuilding the
binary search tree along the search path. -/
def updateBst (seg : List Char) (f : prop_bt → prop_bt) : prop_bt → prop_bt
  | .nil => .nil
  | .node nm pr l c r =>
    let ret := cmp_prop_name seg nm
    if ret = 0 then f (.node nm pr l c r)
    else if ret < 0 then .node nm pr (updateBst seg f l) c r
    else .node nm pr l c (updateBst seg f r)

/-- Apply `f` at the terminal node `navPure segs` would return,
rebuilding the trie along the traversal path. -/
def updateAt (f : prop_bt → prop_bt) : List (List Char) → prop_bt → prop_bt
  | [], t => f t
  | seg :: rest, t =>
    match t with
    | .nil => .nil
    | .node nm pr l c r =>
      if seg.length = 0 then .node nm pr l c r
      else .node nm pr l (updateBst seg (updateAt f rest) c) r

/-- How one allocator state may evolve into another: the bump pointer
never moves back, and 4-divisibility is preserved. -/
def AllocAdvance (a a2 : AllocState) : Prop :=
  a.bytes_used ≤ a2.bytes_used ∧ a2.pa_data_size = a.pa_data_size ∧
    (4 ∣ a.bytes_used → 4 ∣ a2.bytes_used)

/-- A traversal continuation that maps a node to a node with the same
name segment (as every in-place mutation of the source does). -/
def KeepsNodeName (k : TrieCont) : Prop :=
  ∀ nm pr l c r a, ∃ pr2 l2 c2 r2,
    (k (.node nm pr l c r) a).1 = .node nm pr2 l2 c2 r2

/-- Entry stored at `"a.b"` in the C3 witness store. -/
def c3piB : prop_info :=
  { name := "a.b".toList, serial := 0, value := ['1'], long_data := none }

/-- Entry stored at `"a.c"` in the C3 witness store. -/
def c3piC : prop_info :=
  { name := "a.c".toList, serial := 0, value := ['2'], long_data := none }

/-- A concrete store holding `"a.b"` and `"a.c"` (siblings in the
children BST of the `a` node), used by the C3 witness. -/
def c3t : prop_bt :=
  .node [] none .nil
    (.node ['a'] none .nil
      (.node ['b'] (some c3piB) .nil .nil
        (.node ['c'] (some c3piC) .nil .nil .nil))
      .nil)
    .nil

/-! ## Bitwise helper lemmas -/

/-- Disjoint-bit decomposition: a shifted value or-ed with a small value
is their sum. -/
theorem lor_shift_add (a b k : Nat) (h : b < 2 ^ k) : a <<< k ||| b = a * 2 ^ k + b := by
  apply Nat.eq_of_testBit_eq
  intro j
  rw [Nat.testBit_or, Nat.testBit_shiftLeft]
  rcases Nat.lt_or_ge j k with hj | hj
  · have h1 : decide (j ≥ k) = false := by simp; omega
    rw [h1]
    simp only [Bool.false_and, Bool.false_or]
    have h2 : (a * 2 ^ k + b) % 2 ^ k = b % 2 ^ k := Nat.mul_add_mod' a (2 ^ k) b
    have h3 : (a * 2 ^ k + b).testBit j = ((a * 2 ^ k + b) % 2 ^ k).testBit j := by
      rw [Nat.testBit_mod_two_pow]
      simp [hj]
    rw [h3, h2, Nat.mod_eq_of_lt h]
  · have h1 : decide (j ≥ k) = true := by simp; omega
    rw [h1]
    simp only [Bool.true_and]
    have hb : b.testBit j = false :=
      Nat.testBit_lt_two_pow (lt_of_lt_of_le h (Nat.pow_le_pow_right (by norm_num) hj))
    rw [hb, Bool.or_false]
    have hj2 : j = k + (j - k) := by omega
    rw [hj2, ← Nat.testBit_shiftRight]
    have hdiv : (a * 2 ^ k + b) >>> k = a := by
      rw [Nat.shiftRight_eq_div_pow, Nat.mul_comm a (2 ^ k),
        Nat.mul_add_div (Nat.pos_pow_of_pos k (by norm_num)), Nat.div_eq_of_lt h]
      omega
    rw [hdiv]
    congr 1
    omega

/-- Masking with an all-ones pattern is reduction modulo the power of
two. -/
theorem land_mask (n k : Nat) : n &&& (2 ^ k - 1) = n % 2 ^ k := by
  apply Nat.eq_of_testBit_eq
  intro i
  rw [Nat.testBit_and, Nat.testBit_two_pow_sub_one, Nat.testBit_mod_two_pow]
  rw [Bool.and_comm]

/-- Setting bit 0 makes a number odd. -/
theorem lor_one_mod_two (x : Nat) : (x ||| 1) % 2 = 1 := by
  have h0 : (x ||| 1).testBit 0 = true := by
    rw [Nat.testBit_or]
    simp [Nat.testBit_zero]
  rw [Nat.testBit_zero] at h0
  exact of_decide_eq_true h0

/-- Bit 0 as a remainder. -/
theorem land_one_eq_mod (x : Nat) : x &&& 1 = x % 2 :=
  Nat.and_one_is_mod x

/-! ## Claim C2: the serial word written by a successful Update -/

/-- Claim C2: for an entry whose serial word has the dirty bit clear and
a new value of length `len < PROP_VALUE_MAX`, a successful `Update`
leaves the serial word with value-length field (bits 31..24) equal to
`len`, dirty bit (bit 0) clear, and sequence field (bits 23..1) equal to
the previous sequence plus one modulo `2^23`. -/
theorem claim_C2_update_serial (ini rw : Bool) (pi : prop_info) (serial_pa : Nat)
    (value : List Char) (pi2 : prop_info) (bk : List Char) (gs : Nat)
    (hdirty : pi.serial % 2 = 0) (_hword : pi.serial < 2 ^ 32)
    (hupd : SystemProperties.Update ini rw pi serial_pa value = some (pi2, bk, gs)) :
    SERIAL_VALUE_LEN pi2.serial = value.length ∧ pi2.serial % 2 = 0 ∧
      pi2.serial / 2 % 2 ^ 23 = (pi.serial / 2 % 2 ^ 23 + 1) % 2 ^ 23 := by
  unfold SystemProperties.Update at hupd
  simp only [] at hupd
  split at hupd
  · simp at hupd
  split at hupd
  · simp at hupd
  split at hupd
  · simp at hupd
  rw [Option.some.injEq, Prod.mk.injEq, Prod.mk.injEq] at hupd
  obtain ⟨hpi, -, -⟩ := hupd
  have hs : pi2.serial = (value.length <<< 24) ||| (((pi.serial ||| 1) + 1) &&& 16777215) := by
    rw [← hpi]
  obtain ⟨m, hm⟩ : ∃ m, pi.serial = 2 * m := ⟨pi.serial / 2, by omega⟩
  have h1 : pi.serial ||| 1 = 2 * m + 1 := by
    have : pi.serial = m <<< 1 := by rw [Nat.shiftLeft_eq]; omega
    rw [this, lor_shift_add m 1 1 (by norm_num)]
    omega
  have h2 : ((pi.serial ||| 1) + 1) &&& 16777215 = (2 * m + 2) % 2 ^ 24 := by
    rw [h1]
    have : (16777215 : Nat) = 2 ^ 24 - 1 := by norm_num
    rw [this, land_mask]
  have h3 : pi2.serial = value.length * 2 ^ 24 + (2 * m + 2) % 2 ^ 24 := by
    rw [hs, h2, lor_shift_add]
    omega
  refine ⟨?_, ?_, ?_⟩
  · rw [SERIAL_VALUE_LEN, Nat.shiftRight_eq_div_pow, h3]
    omega
  · rw [h3]
    omega
  · rw [h3, hm]
    omega

/-- Witness for claim C2 at a concrete entry and value. -/
theorem claim_C2_update_serial_witness :
    c2pi.serial % 2 = 0 ∧ c2pi.serial < 2 ^ 32 ∧
      SystemProperties.Update true true c2pi 0 ['y', 'y'] = some (c2res.1, c2res.2.1, c2res.2.2) ∧
      (SERIAL_VALUE_LEN c2res.1.serial = 2 ∧ c2res.1.serial % 2 = 0 ∧
        c2res.1.serial / 2 % 2 ^ 23 = (c2pi.serial / 2 % 2 ^ 23 + 1) % 2 ^ 23) :=
  ⟨by decide, by decide, by decide,
    claim_C2_update_serial true true c2pi 0 ['y', 'y'] c2res.1 c2res.2.1 c2res.2.2
      (by decide) (by decide) (by decide)⟩

/-! ## Claim C9: v1 client result after a full send -/

/-- Claim C9: in the v1 wire client, once the full fixed-size `prop_msg`
has been sent, `send_prop_msg` returns 0 both when the poll observes
POLLHUP and when the 250 ms poll elapses without the socket closing
(timeout treated as success) — indeed for every poll outcome. -/
theorem claim_C9_v1_timeout_success :
    send_prop_msg_result (PROP_MSG_SIZE : Int) 1 POLLHUP = 0 ∧
      send_prop_msg_result (PROP_MSG_SIZE : Int) 0 0 = 0 ∧
      ∀ poll_result : Int, ∀ revents : Nat,
        send_prop_msg_result (PROP_MSG_SIZE : Int) poll_result revents = 0 := by
  refine ⟨by decide, by decide, ?_⟩
  intro poll_result revents
  unfold send_prop_msg_result
  simp

/-! ## Claim C10: dirty-clear entries carry a value of the length the
serial word declares -/

/-- Claim C10: for short-form entries, whenever the dirty bit is clear
the inline value holds a string whose length equals the serial word's
value-length field; this holds after construction by `add`
(`prop_info`'s short constructor) and is re-established by every
successful `Update`. -/
theorem claim_C10_short_invariant :
    (∀ name value : List Char, value.length < PROP_VALUE_MAX →
      SERIAL_DIRTY (prop_info.mkShort name value).serial = false ∧
      (prop_info.mkShort name value).value.length =
        SERIAL_VALUE_LEN (prop_info.mkShort name value).serial) ∧
    (∀ (ini rw : Bool) (pi : prop_info) (serial_pa : Nat) (value : List Char)
        (pi2 : prop_info) (bk : List Char) (gs : Nat),
      SystemProperties.Update ini rw pi serial_pa value = some (pi2, bk, gs) →
      SERIAL_DIRTY pi2.serial = false ∧
      pi2.value.length = SERIAL_VALUE_LEN pi2.serial ∧
      pi2.long_data = pi.long_data) := by
  constructor
  · intro name value _
    constructor
    · have hs : (prop_info.mkShort name value).serial = value.length <<< 24 := rfl
      rw [SERIAL_DIRTY, hs, land_one_eq_mod, Nat.shiftLeft_eq]
      have he : value.length * 2 ^ 24 % 2 = 0 := by omega
      rw [he]
      decide
    · have hs : (prop_info.mkShort name value).serial = value.length <<< 24 := rfl
      have hv : (prop_info.mkShort name value).value = value := rfl
      rw [hs, hv, SERIAL_VALUE_LEN, Nat.shiftLeft_eq, Nat.shiftRight_eq_div_pow]
      omega
  · intro ini rw pi serial_pa value pi2 bk gs hupd
    unfold SystemProperties.Update at hupd
    simp only [] at hupd
    split at hupd
    · simp at hupd
    split at hupd
    · simp at hupd
    split at hupd
    · simp at hupd
    rw [Option.some.injEq, Prod.mk.injEq, Prod.mk.injEq] at hupd
    obtain ⟨hpi, -, -⟩ := hupd
    have hs : pi2.serial = (value.length <<< 24) ||| (((pi.serial ||| 1) + 1) &&& 16777215) := by
      rw [← hpi]
    have hv : pi2.value = value.take value.length := by rw [← hpi]
    have hl : pi2.long_data = pi.long_data := by rw [← hpi]
    have hodd : (pi.serial ||| 1) % 2 = 1 := lor_one_mod_two pi.serial
    have h2 : ((pi.serial ||| 1) + 1) &&& 16777215 = ((pi.serial ||| 1) + 1) % 2 ^ 24 := by
      have : (16777215 : Nat) = 2 ^ 24 - 1 := by norm_num
      rw [this, land_mask]
    have h3 : pi2.serial = value.length * 2 ^ 24 + ((pi.serial ||| 1) + 1) % 2 ^ 24 := by
      rw [hs, h2, lor_shift_add]
      omega
    refine ⟨?_, ?_, hl⟩
    · rw [SERIAL_DIRTY, land_one_eq_mod, h3]
      have he : (value.length * 2 ^ 24 + ((pi.serial ||| 1) + 1) % 2 ^ 24) % 2 = 0 := by omega
      rw [he]
      decide
    · rw [hv, SERIAL_VALUE_LEN, h3, List.take_length, Nat.shiftRight_eq_div_pow]
      omega

/-- Witness for claim C10: both conjuncts applied at concrete inputs. -/
theorem claim_C10_short_invariant_witness :
    (List.length ['x'] < PROP_VALUE_MAX ∧
      (SERIAL_DIRTY (prop_info.mkShort ['a'] ['x']).serial = false ∧
        (prop_info.mkShort ['a'] ['x']).value.length =
          SERIAL_VALUE_LEN (prop_info.mkShort ['a'] ['x']).serial)) ∧
    (SystemProperties.Update true true c2pi 0 ['y', 'y'] = some (c2res.1, c2res.2.1, c2res.2.2) ∧
      (SERIAL_DIRTY c2res.1.serial = false ∧
        c2res.1.value.length = SERIAL_VALUE_LEN c2res.1.serial ∧
        c2res.1.long_data = c2pi.long_data)) :=
  ⟨⟨by decide, claim_C10_short_invariant.1 ['a'] ['x'] (by decide)⟩,
    ⟨by decide, claim_C10_short_invariant.2 true true c2pi 0 ['y', 'y'] c2res.1 c2res.2.1
      c2res.2.2 (by decide)⟩⟩

/-! ## Claim C8: long-form read-only entries and the legacy read path -/

/-- Claim C8: for a property whose name begins with `"ro."` and whose
value was stored long-form (length ≥ PROP_VALUE_MAX at add time), the
legacy `Read` path returns the embedded legacy error string and that
string's length, while `ReadCallback` passes the true long value to the
callback. -/
theorem claim_C8_long_legacy_read (a a2 : AllocState) (name value bk : List Char)
    (pi : prop_info)
    (hro : is_read_only name = true) (hlong : PROP_VALUE_MAX ≤ value.length)
    (hmk : new_prop_info a name value = (a2, some pi)) :
    SystemProperties.Read pi bk = (kLongLegacyError, kLongLegacyError.length) ∧
    SystemProperties.ReadCallback pi bk = (name, value, pi.serial) := by
  have hpi : pi = prop_info.mkLong name value := by
    unfold new_prop_info at hmk
    rcases h1 : allocate_obj a (SIZEOF_PROP_INFO + name.length + 1) with ⟨a3, o1⟩
    rw [h1] at hmk
    cases o1 with
    | none => simp at hmk
    | some off =>
      simp only [ge_iff_le, hlong, if_pos] at hmk
      rcases h2 : allocate_obj a3 (value.length + 1) with ⟨a4, o2⟩
      rw [h2] at hmk
      cases o2 with
      | none => simp at hmk
      | some off2 =>
        rw [Prod.mk.injEq, Option.some.injEq] at hmk
        exact hmk.2.symm
  subst hpi
  have hserial : (prop_info.mkLong name value).serial =
      (kLongLegacyError.length <<< 24) ||| kLongFlag := rfl
  have hdirty : SERIAL_DIRTY ((kLongLegacyError.length <<< 24) ||| kLongFlag) = false := by
    decide
  have hlen : SERIAL_VALUE_LEN ((kLongLegacyError.length <<< 24) ||| kLongFlag) =
      kLongLegacyError.length := by decide
  have hislong : (prop_info.mkLong name value).is_long = true := by
    rw [prop_info.is_long, hserial]
    decide
  constructor
  · rw [SystemProperties.Read, ReadMutablePropertyValue]
    simp only [hserial, hdirty, hlen, if_neg (by simp : ¬ false = true)]
    show ((prop_info.mkLong name value).value.take kLongLegacyError.length,
      kLongLegacyError.length) = _
    have hval : (prop_info.mkLong name value).value = kLongLegacyError := rfl
    rw [hval, List.take_length]
  · rw [SystemProperties.ReadCallback]
    have hnm : (prop_info.mkLong name value).name = name := rfl
    have hlv : (prop_info.mkLong name value).long_value = value := rfl
    rw [hnm, hro]
    simp [hislong, hlv]

/-- Witness for claim C8 at a concrete read-only long property. -/
theorem claim_C8_long_legacy_read_witness :
    is_read_only "ro.x".toList = true ∧
      PROP_VALUE_MAX ≤ (List.replicate 92 'v').length ∧
      new_prop_info { bytes_used := 0, pa_data_size := 1000 } "ro.x".toList
        (List.replicate 92 'v') =
        ({ bytes_used := 200, pa_data_size := 1000 },
          some (prop_info.mkLong "ro.x".toList (List.replicate 92 'v'))) ∧
      (SystemProperties.Read (prop_info.mkLong "ro.x".toList (List.replicate 92 'v')) [] =
          (kLongLegacyError, kLongLegacyError.length) ∧
        SystemProperties.ReadCallback
            (prop_info.mkLong "ro.x".toList (List.replicate 92 'v')) [] =
          ("ro.x".toList, List.replicate 92 'v',
            (prop_info.mkLong "ro.x".toList (List.replicate 92 'v')).serial)) :=
  ⟨by decide, by decide, by decide,
    claim_C8_long_legacy_read { bytes_used := 0, pa_data_size := 1000 }
      { bytes_used := 200, pa_data_size := 1000 } "ro.x".toList (List.replicate 92 'v') []
      (prop_info.mkLong "ro.x".toList (List.replicate 92 'v'))
      (by decide) (by decide) (by decide)⟩

/-! ## Claim C5: enumeration and FindNth -/

/-- The `find_nth` callback fold with arbitrary starting counter and
accumulator: it selects the element whose running index hits `sought`. -/
theorem find_nth_fold_general (sought : Nat) :
    ∀ (l : List prop_info) (cur : Nat) (acc : Option prop_info),
      (l.foldl (fun st pi => (st.1 + 1, if st.1 = sought then some pi else st.2))
          (cur, acc)).2 =
        if cur ≤ sought then
          match l.get? (sought - cur) with
          | some x => some x
          | none => acc
        else acc := by
  intro l
  induction l with
  | nil =>
    intro cur acc
    simp only [List.foldl_nil, List.get?_nil]
    split <;> rfl
  | cons p rest ih =>
    intro cur acc
    rw [List.foldl_cons, ih (cur + 1) (if cur = sought then some p else acc)]
    rcases Nat.lt_trichotomy cur sought with hlt | heq | hgt
    · rw [if_pos (by omega : cur + 1 ≤ sought), if_pos (by omega : cur ≤ sought),
        if_neg (by omega : ¬ cur = sought)]
      have hidx : sought - cur = (sought - cur - 1) + 1 := by omega
      rw [hidx]
      have hidx2 : sought - (cur + 1) = sought - cur - 1 := by omega
      rw [hidx2]
      rfl
    · subst heq
      rw [if_neg (by omega : ¬ cur + 1 ≤ cur), if_pos (le_refl cur), if_pos rfl]
      simp
    · rw [if_neg (by omega : ¬ cur + 1 ≤ sought), if_neg (by omega : ¬ cur ≤ sought),
        if_neg (by omega : ¬ cur = sought)]

/-- `find_nth_fn` is exactly positional lookup in the callback list. -/
theorem find_nth_fn_eq_get (l : List prop_info) (n : Nat) :
    SystemProperties.find_nth_fn n l = l.get? n := by
  rw [SystemProperties.find_nth_fn, find_nth_fold_general n l 0 none]
  rw [if_pos (Nat.zero_le n), Nat.sub_zero]
  cases l.get? n <;> rfl

/-- `foreach_property` produces one callback per entry-carrying node. -/
theorem foreach_length_eq_countProps (t : prop_bt) :
    (prop_area.foreach_property t).length = prop_area.countProps t := by
  induction t with
  | nil => rfl
  | node nm pr l c r ihl ihc ihr =>
    simp only [prop_area.foreach_property, prop_area.countProps]
    cases pr <;> simp [ihl, ihc, ihr] <;> omega

/-- A node found by the binary-search-tree walk lies inside the tree it
was searched in, so its callbacks are among the tree's callbacks. -/
theorem foreach_mem_of_findBst (seg : List Char) :
    ∀ (c m : prop_bt) (pi : prop_info), findBst seg c = some m →
      pi ∈ prop_area.foreach_property m → pi ∈ prop_area.foreach_property c := by
  intro c
  induction c with
  | nil =>
    intro m pi h
    simp [findBst] at h
  | node nm pr l ch r ihl ihc ihr =>
    intro m pi h hm
    rw [findBst] at h
    split at h
    · cases h
      exact hm
    · split at h
      · have := ihl m pi h hm
        simp only [prop_area.foreach_property, List.mem_append]
        left; left; left
        exact this
      · have := ihr m pi h hm
        simp only [prop_area.foreach_property, List.mem_append]
        right
        exact this

/-- An entry visible below the node the traversal reaches is among the
whole tree's callbacks. -/
theorem foreach_mem_of_nav :
    ∀ (segs : List (List Char)) (t m : prop_bt) (pi : prop_info),
      navPure segs t = some m →
      pi ∈ prop_area.foreach_property m → pi ∈ prop_area.foreach_property t := by
  intro segs
  induction segs with
  | nil =>
    intro t m pi h hm
    rw [navPure] at h
    cases h
    exact hm
  | cons seg rest ih =>
    intro t m pi h hm
    cases t with
    | nil => simp [navPure] at h
    | node nm pr l c r =>
      simp only [navPure] at h
      by_cases hz : seg.length = 0
      · rw [if_pos hz] at h
        cases h
      · rw [if_neg hz] at h
        rcases hbst : findBst seg c with _ | m1
        · rw [hbst] at h
          cases h
        · rw [hbst] at h
          have h1 : pi ∈ prop_area.foreach_property m1 := ih m1 m pi h hm
          have h2 : pi ∈ prop_area.foreach_property c :=
            foreach_mem_of_findBst seg c m1 pi hbst h1
          simp only [prop_area.foreach_property, List.mem_append]
          left; right
          exact h2

/-- Every entry the pure lookup can reach is among the tree's
callbacks. -/
theorem foreach_mem_of_findPure (segs : List (List Char)) (t : prop_bt)
    (pi : prop_info) (h : findPure segs t = some pi) :
    pi ∈ prop_area.foreach_property t := by
  rw [findPure] at h
  rcases hnav : navPure segs t with _ | m
  · rw [hnav] at h
    cases h
  · rw [hnav] at h
    cases m with
    | nil => cases h
    | node nm pr l c r =>
      subst h
      refine foreach_mem_of_nav segs t _ pi hnav ?_
      simp [prop_area.foreach_property]

/-- Claim C5: `foreach` calls the callback exactly once per stored
entry (the callback list, in left, self, children, right order, has one
element per entry-carrying node, and every entry reachable by `find` is
in it), and `FindNth n` is exactly the `n`-th callback of `Foreach`
(counting from 0), `none` when fewer entries exist. -/
theorem claim_C5_foreach_findnth :
    (∀ (areas : List prop_bt) (n : Nat),
      SystemProperties.FindNth areas n = (SystemProperties.Foreach areas).get? n) ∧
    (∀ t : prop_bt,
      (prop_area.foreach_property t).length = prop_area.countProps t) ∧
    (∀ (t : prop_bt) (segs : List (List Char)) (pi : prop_info),
      findPure segs t = some pi → pi ∈ prop_area.foreach_property t) :=
  ⟨fun areas n => find_nth_fn_eq_get (SystemProperties.Foreach areas) n,
    foreach_length_eq_countProps,
    fun t segs pi h => foreach_mem_of_findPure segs t pi h⟩

/-- Witness for claim C5: the membership conjunct discharged at a
concrete one-entry area, and the other conjuncts instantiated there. -/
theorem claim_C5_foreach_findnth_witness :
    (SystemProperties.FindNth [prop_bt.node [] none .nil
        (.node ['a'] (some (prop_info.mkShort ['a'] ['x'])) .nil .nil .nil) .nil] 0 =
      (SystemProperties.Foreach [prop_bt.node [] none .nil
        (.node ['a'] (some (prop_info.mkShort ['a'] ['x'])) .nil .nil .nil) .nil]).get? 0) ∧
    (findPure [['a']] (prop_bt.node [] none .nil
        (.node ['a'] (some (prop_info.mkShort ['a'] ['x'])) .nil .nil .nil) .nil) =
      some (prop_info.mkShort ['a'] ['x']) ∧
      prop_info.mkShort ['a'] ['x'] ∈ prop_area.foreach_property
        (prop_bt.node [] none .nil
          (.node ['a'] (some (prop_info.mkShort ['a'] ['x'])) .nil .nil .nil) .nil)) :=
  ⟨claim_C5_foreach_findnth.1 [prop_bt.node [] none .nil
      (.node ['a'] (some (prop_info.mkShort ['a'] ['x'])) .nil .nil .nil) .nil] 0,
    by decide,
    claim_C5_foreach_findnth.2.2 (prop_bt.node [] none .nil
        (.node ['a'] (some (prop_info.mkShort ['a'] ['x'])) .nil .nil .nil) .nil)
      [['a']] (prop_info.mkShort ['a'] ['x']) (by decide)⟩

/-! ## Claim C6: empty name segments are rejected -/

/-- Traversal fails on any segment list containing an empty segment. -/
theorem navPure_empty_seg :
    ∀ (segs : List (List Char)), [] ∈ segs → ∀ t : prop_bt, navPure segs t = none := by
  intro segs
  induction segs with
  | nil => intro h; cases h
  | cons seg rest ih =>
    intro h t
    cases t with
    | nil => rfl
    | node nm pr l c r =>
      simp only [navPure]
      rcases List.mem_cons.mp h with heq | hrest
      · rw [if_pos]
        rw [← heq]
        rfl
      · by_cases hz : seg.length = 0
        · rw [if_pos hz]
        · rw [if_neg hz]
          rcases hbst : findBst seg c with _ | m
          · rfl
          · exact ih hrest m

/-- Pure lookup fails on any segment list containing an empty
segment. -/
theorem findPure_empty_seg (segs : List (List Char)) (h : [] ∈ segs) (t : prop_bt) :
    findPure segs t = none := by
  rw [findPure, navPure_empty_seg segs h t]

/-- `find_prop_bt` with a continuation that always fails without
creating an entry or disturbing the callback list itself fails without
creating an entry or disturbing the callback list. -/
theorem find_prop_bt_none_foreach (seg : List Char) (k : TrieCont)
    (hk : ∀ t a, (k t a).2.2 = none ∧
      prop_area.foreach_property (k t a).1 = prop_area.foreach_property t) :
    ∀ t a, (find_prop_bt true seg k t a).2.2 = none ∧
      prop_area.foreach_property (find_prop_bt true seg k t a).1 =
        prop_area.foreach_property t := by
  intro t
  induction t with
  | nil => intro a; exact ⟨rfl, rfl⟩
  | node nm pr l c r ihl ihc ihr =>
    intro a
    simp only [find_prop_bt]
    split
    · exact hk _ a
    · split
      · cases l with
        | nil =>
          simp only []
          rcases halloc : new_prop_bt a seg with ⟨a2, o⟩
          cases o with
          | some fresh =>
            have hfresh : fresh = .node seg none .nil .nil .nil := by
              unfold new_prop_bt at halloc
              rcases h2 : allocate_obj a (SIZEOF_PROP_BT + seg.length + 1) with ⟨a3, o2⟩
              rw [h2] at halloc
              cases o2 <;> simp at halloc
              exact halloc.2.symm
            have hres := hk fresh a2
            refine ⟨hres.1, ?_⟩
            simp only [prop_area.foreach_property]
            rw [hres.2, hfresh]
            rfl
          | none => exact ⟨rfl, rfl⟩
        | node nm2 pr2 l2 c2 r2 =>
          have hres := ihl a
          refine ⟨hres.1, ?_⟩
          simp only [prop_area.foreach_property]
          rw [hres.2]
          simp [prop_area.foreach_property]
      · cases r with
        | nil =>
          simp only []
          rcases halloc : new_prop_bt a seg with ⟨a2, o⟩
          cases o with
          | some fresh =>
            have hfresh : fresh = .node seg none .nil .nil .nil := by
              unfold new_prop_bt at halloc
              rcases h2 : allocate_obj a (SIZEOF_PROP_BT + seg.length + 1) with ⟨a3, o2⟩
              rw [h2] at halloc
              cases o2 <;> simp at halloc
              exact halloc.2.symm
            have hres := hk fresh a2
            refine ⟨hres.1, ?_⟩
            simp only [prop_area.foreach_property]
            rw [hres.2, hfresh]
            simp [prop_area.foreach_property]
          | none => exact ⟨rfl, rfl⟩
        | node nm2 pr2 l2 c2 r2 =>
          have hres := ihr a
          refine ⟨hres.1, ?_⟩
          simp only [prop_area.foreach_property]
          rw [hres.2]
          simp [prop_area.foreach_property]


/-! ## Pure characterization of the non-allocating traversal
(`find` and `remove`) -/

theorem find_prop_bt_false_char (seg : List Char) (k : TrieCont)
    (G : prop_bt → prop_bt) (K : prop_bt → Option prop_info)
    (hk : ∀ t a, k t a = (G t, a, K t)) :
    ∀ t a, find_prop_bt false seg k t a =
      (match findBst seg t with
       | some m => (updateBst seg G t, a, K m)
       | none => (t, a, none)) := by
  intro t
  induction t with
  | nil => intro a; rfl
  | node nm pr l c r ihl ihc ihr =>
    intro a
    by_cases h0 : cmp_prop_name seg nm = 0
    · have h1 : find_prop_bt false seg k (prop_bt.node nm pr l c r) a
          = k (prop_bt.node nm pr l c r) a := by
        simp only [find_prop_bt]
        rw [if_pos h0]
      have h2 : findBst seg (prop_bt.node nm pr l c r)
          = some (prop_bt.node nm pr l c r) := by
        simp only [findBst]
        rw [if_pos h0]
      have h3 : updateBst seg G (prop_bt.node nm pr l c r)
          = G (prop_bt.node nm pr l c r) := by
        simp only [updateBst]
        rw [if_pos h0]
      rw [h1, h2, hk, h3]
    · by_cases hlt : cmp_prop_name seg nm < 0
      · have h2 : findBst seg (prop_bt.node nm pr l c r) = findBst seg l := by
          simp only [findBst]
          rw [if_neg h0, if_pos hlt]
        have h3 : updateBst seg G (prop_bt.node nm pr l c r)
            = prop_bt.node nm pr (updateBst seg G l) c r := by
          simp only [updateBst]
          rw [if_neg h0, if_pos hlt]
        rw [h2, h3]
        cases l with
        | nil =>
          have h1 : find_prop_bt false seg k (prop_bt.node nm pr .nil c r) a
              = (prop_bt.node nm pr .nil c r, a, none) := by
            simp only [find_prop_bt]
            rw [if_neg h0, if_pos hlt]
            rfl
          rw [h1]
          rfl
        | node nm2 pr2 l2 c2 r2 =>
          have h1 : find_prop_bt false seg k
                (prop_bt.node nm pr (prop_bt.node nm2 pr2 l2 c2 r2) c r) a
              = (prop_bt.node nm pr
                   (find_prop_bt false seg k (prop_bt.node nm2 pr2 l2 c2 r2) a).1 c r,
                 (find_prop_bt false seg k (prop_bt.node nm2 pr2 l2 c2 r2) a).2.1,
                 (find_prop_bt false seg k (prop_bt.node nm2 pr2 l2 c2 r2) a).2.2) := by
            simp only [find_prop_bt]
            rw [if_neg h0, if_pos hlt]
          rw [h1, ihl a]
          rcases hbst : findBst seg (prop_bt.node nm2 pr2 l2 c2 r2) with _ | m <;> rfl
      · have h2 : findBst seg (prop_bt.node nm pr l c r) = findBst seg r := by
          simp only [findBst]
          rw [if_neg h0, if_neg hlt]
        have h3 : updateBst seg G (prop_bt.node nm pr l c r)
            = prop_bt.node nm pr l c (updateBst seg G r) := by
          simp only [updateBst]
          rw [if_neg h0, if_neg hlt]
        rw [h2, h3]
        cases r with
        | nil =>
          have h1 : find_prop_bt false seg k (prop_bt.node nm pr l c .nil) a
              = (prop_bt.node nm pr l c .nil, a, none) := by
            simp only [find_prop_bt]
            rw [if_neg h0, if_neg hlt]
            rfl
          rw [h1]
          rfl
        | node nm2 pr2 l2 c2 r2 =>
          have h1 : find_prop_bt false seg k
                (prop_bt.node nm pr l c (prop_bt.node nm2 pr2 l2 c2 r2)) a
              = (prop_bt.node nm pr l c
                   (find_prop_bt false seg k (prop_bt.node nm2 pr2 l2 c2 r2) a).1,
                 (find_prop_bt false seg k (prop_bt.node nm2 pr2 l2 c2 r2) a).2.1,
                 (find_prop_bt false seg k (prop_bt.node nm2 pr2 l2 c2 r2) a).2.2) := by
            simp only [find_prop_bt]
            rw [if_neg h0, if_neg hlt]
          rw [h1, ihr a]
          rcases hbst : findBst seg (prop_bt.node nm2 pr2 l2 c2 r2) with _ | m <;> rfl

theorem updateBst_congr (seg : List Char) (f f2 : prop_bt → prop_bt) :
    ∀ (c m : prop_bt), findBst seg c = some m → f m = f2 m →
      updateBst seg f c = updateBst seg f2 c := by
  intro c
  induction c with
  | nil => intro m h _; cases h
  | node nm pr l ch r ihl ihc ihr =>
    intro m h hf
    simp only [findBst] at h
    simp only [updateBst]
    by_cases h0 : cmp_prop_name seg nm = 0
    · rw [if_pos h0] at h
      rw [if_pos h0, if_pos h0]
      cases h
      exact hf
    · rw [if_neg h0] at h
      rw [if_neg h0, if_neg h0]
      by_cases hlt : cmp_prop_name seg nm < 0
      · rw [if_pos hlt] at h
        rw [if_pos hlt, if_pos hlt, ihl m h hf]
      · rw [if_neg hlt] at h
        rw [if_neg hlt, if_neg hlt, ihr m h hf]

theorem updateBst_eq_self (seg : List Char) (f : prop_bt → prop_bt) :
    ∀ (c m : prop_bt), findBst seg c = some m → f m = m →
      updateBst seg f c = c := by
  intro c
  induction c with
  | nil => intro m h _; cases h
  | node nm pr l ch r ihl ihc ihr =>
    intro m h hf
    simp only [findBst] at h
    simp only [updateBst]
    by_cases h0 : cmp_prop_name seg nm = 0
    · rw [if_pos h0] at h
      rw [if_pos h0]
      cases h
      exact hf
    · rw [if_neg h0] at h
      rw [if_neg h0]
      by_cases hlt : cmp_prop_name seg nm < 0
      · rw [if_pos hlt] at h
        rw [if_pos hlt, ihl m h hf]
      · rw [if_neg hlt] at h
        rw [if_neg hlt, ihr m h hf]

theorem foldr_false_char (base : TrieCont) (g : prop_bt → prop_bt)
    (kap : prop_bt → Option prop_info)
    (hbase : ∀ t a, base t a = (g t, a, kap t)) :
    ∀ (segs : List (List Char)) (t : prop_bt) (a : AllocState),
      (segs.foldr (traverse_step false) base) t a =
        (match navPure segs t with
         | some m => (updateAt g segs t, a, kap m)
         | none => (t, a, none)) := by
  intro segs
  induction segs with
  | nil =>
    intro t a
    simp only [List.foldr_nil, navPure, updateAt]
    exact hbase t a
  | cons seg rest ih =>
    intro t a
    rw [List.foldr_cons]
    have hk2 : ∀ t2 a2, (rest.foldr (traverse_step false) base) t2 a2 =
        ((fun t3 => match navPure rest t3 with
          | some _ => updateAt g rest t3
          | none => t3) t2,
         a2,
         (fun t3 => match navPure rest t3 with
          | some m => kap m
          | none => none) t2) := by
      intro t2 a2
      rw [ih t2 a2]
      simp only []
      cases hh : navPure rest t2 <;> rfl
    cases t with
    | nil => rfl
    | node nm pr l c r =>
      by_cases hz : seg.length = 0
      · have h1 : traverse_step false seg (rest.foldr (traverse_step false) base)
              (prop_bt.node nm pr l c r) a = (prop_bt.node nm pr l c r, a, none) := by
          simp only [traverse_step]
          rw [if_pos hz]
        have h2 : navPure (seg :: rest) (prop_bt.node nm pr l c r) = none := by
          simp only [navPure]
          rw [if_pos hz]
        rw [h1, h2]
      · have h2 : navPure (seg :: rest) (prop_bt.node nm pr l c r) =
            (match findBst seg c with
             | some m => navPure rest m
             | none => none) := by
          simp only [navPure]
          rw [if_neg hz]
        cases c with
        | nil =>
          have h1 : traverse_step false seg (rest.foldr (traverse_step false) base)
                (prop_bt.node nm pr l .nil r) a = (prop_bt.node nm pr l .nil r, a, none) := by
            simp only [traverse_step]
            rw [if_neg hz]
            rfl
          rw [h1, h2]
          rfl
        | node nmc prc lc cc rc =>
          have h1 : traverse_step false seg (rest.foldr (traverse_step false) base)
                (prop_bt.node nm pr l (prop_bt.node nmc prc lc cc rc) r) a =
              (prop_bt.node nm pr l
                 (find_prop_bt false seg (rest.foldr (traverse_step false) base)
                   (prop_bt.node nmc prc lc cc rc) a).1 r,
               (find_prop_bt false seg (rest.foldr (traverse_step false) base)
                 (prop_bt.node nmc prc lc cc rc) a).2.1,
               (find_prop_bt false seg (rest.foldr (traverse_step false) base)
                 (prop_bt.node nmc prc lc cc rc) a).2.2) := by
            simp only [traverse_step]
            rw [if_neg hz]
          rw [h1, h2,
            find_prop_bt_false_char seg (rest.foldr (traverse_step false) base)
              (fun t3 => match navPure rest t3 with
                | some _ => updateAt g rest t3
                | none => t3)
              (fun t3 => match navPure rest t3 with
                | some m => kap m
                | none => none)
              hk2 (prop_bt.node nmc prc lc cc rc) a]
          rcases hbst : findBst seg (prop_bt.node nmc prc lc cc rc) with _ | m
          · rfl
          · rcases hnav : navPure rest m with _ | m2
            · have hGm : (fun t3 => match navPure rest t3 with
                  | some _ => updateAt g rest t3
                  | none => t3) m = m := by
                simp only []
                rw [hnav]
              rw [updateBst_eq_self seg _ _ m hbst hGm]
              simp only []
              rw [hnav]
            · have hGm : (fun t3 => match navPure rest t3 with
                  | some _ => updateAt g rest t3
                  | none => t3) m = updateAt g rest m := by
                simp only []
                rw [hnav]
              rw [updateBst_congr seg _ (updateAt g rest) (prop_bt.node nmc prc lc cc rc)
                m hbst hGm]
              have h4 : updateAt g (seg :: rest) (prop_bt.node nm pr l (prop_bt.node nmc prc lc cc rc) r)
                  = prop_bt.node nm pr l
                      (updateBst seg (updateAt g rest) (prop_bt.node nmc prc lc cc rc)) r := by
                simp only [updateAt]
                rw [if_neg hz]
              rw [h4]
              simp only []
              rw [hnav]

theorem updateAt_eq_self (f : prop_bt → prop_bt) :
    ∀ (segs : List (List Char)) (t m : prop_bt),
      navPure segs t = some m → f m = m → updateAt f segs t = t := by
  intro segs
  induction segs with
  | nil =>
    intro t m h hf
    rw [navPure] at h
    cases h
    exact hf
  | cons seg rest ih =>
    intro t m h hf
    cases t with
    | nil => rfl
    | node nm pr l c r =>
      simp only [navPure] at h
      by_cases hz : seg.length = 0
      · rw [if_pos hz] at h
        cases h
      · rw [if_neg hz] at h
        simp only [updateAt]
        rw [if_neg hz]
        rcases hbst : findBst seg c with _ | m1
        · rw [hbst] at h
          cases h
        · rw [hbst] at h
          have hfix : updateAt f rest m1 = m1 := ih m1 m h hf
          rw [updateBst_eq_self seg _ c m1 hbst hfix]

theorem find_eq_findPure (t : prop_bt) (name : List Char) :
    prop_area.find t name = findPure (splitName name) t := by
  have hbase : ∀ t2 a2, prop_end false name [] t2 a2 = ((fun x => x) t2, a2, propOf t2) := by
    intro t2 a2
    cases t2 with
    | nil => rfl
    | node nm pr l c r => cases pr <;> rfl
  rw [prop_area.find, find_property,
    foldr_false_char (prop_end false name []) (fun x => x) propOf hbase]
  rw [findPure]
  cases hnav : navPure (splitName name) t with
  | none => rfl
  | some m => cases m <;> rfl

theorem remove_char (t : prop_bt) (name : List Char) (prune : Bool) :
    prop_area.remove t name prune =
      (match navPure (splitName name) t with
       | some m =>
         (match propOf m with
          | some _ =>
            (if prune then
               match prop_area.prune_trie (updateAt removeProp (splitName name) t) with
               | none => prop_bt.node [] none .nil .nil .nil
               | some t2 => t2
             else updateAt removeProp (splitName name) t, true)
          | none => (t, false))
       | none => (t, false)) := by
  have hbase : ∀ t2 a2, prop_area.remove_end t2 a2 = (removeProp t2, a2, propOf t2) := by
    intro t2 a2
    cases t2 with
    | nil => rfl
    | node nm pr l c r => cases pr <;> rfl
  rw [prop_area.remove,
    foldr_false_char prop_area.remove_end removeProp propOf hbase]
  cases hnav : navPure (splitName name) t with
  | none => rfl
  | some m =>
    cases hprop : propOf m with
    | some pi => simp only [hprop]
    | none =>
      have hfix : removeProp m = m := by
        cases m with
        | nil => rfl
        | node nm2 pr2 l2 c2 r2 =>
          rw [propOf] at hprop
          rw [removeProp, hprop]
      rw [updateAt_eq_self removeProp (splitName name) t m hnav hfix]
      simp only [hprop]

/-- One allocating traversal step whose continuation always fails
without creating an entry or changing the callback list also fails
without creating an entry or changing the callback list. -/
theorem traverse_step_none_foreach (seg : List Char) (k : TrieCont)
    (hk : ∀ t a, (k t a).2.2 = none ∧
      prop_area.foreach_property (k t a).1 = prop_area.foreach_property t) :
    ∀ t a, (traverse_step true seg k t a).2.2 = none ∧
      prop_area.foreach_property (traverse_step true seg k t a).1 =
        prop_area.foreach_property t := by
  intro t a
  cases t with
  | nil => exact ⟨rfl, rfl⟩
  | node nm pr l c r =>
    by_cases hz : seg.length = 0
    · have h1 : traverse_step true seg k (prop_bt.node nm pr l c r) a =
          (prop_bt.node nm pr l c r, a, none) := by
        simp only [traverse_step]
        rw [if_pos hz]
      rw [h1]
      exact ⟨rfl, rfl⟩
    · cases c with
      | node nmc prc lc cc rc =>
        have h1 : traverse_step true seg k
              (prop_bt.node nm pr l (prop_bt.node nmc prc lc cc rc) r) a =
            (prop_bt.node nm pr l
               (find_prop_bt true seg k (prop_bt.node nmc prc lc cc rc) a).1 r,
             (find_prop_bt true seg k (prop_bt.node nmc prc lc cc rc) a).2.1,
             (find_prop_bt true seg k (prop_bt.node nmc prc lc cc rc) a).2.2) := by
          simp only [traverse_step]
          rw [if_neg hz]
        rw [h1]
        have hres := find_prop_bt_none_foreach seg k hk (prop_bt.node nmc prc lc cc rc) a
        refine ⟨hres.1, ?_⟩
        simp only [prop_area.foreach_property]
        rw [hres.2]
        simp [prop_area.foreach_property]
      | nil =>
        have h1 : traverse_step true seg k (prop_bt.node nm pr l .nil r) a =
            (match new_prop_bt a seg with
             | (a2, some fresh) =>
               (prop_bt.node nm pr l (find_prop_bt true seg k fresh a2).1 r,
                (find_prop_bt true seg k fresh a2).2.1,
                (find_prop_bt true seg k fresh a2).2.2)
             | (a2, none) => (prop_bt.node nm pr l .nil r, a2, none)) := by
          simp only [traverse_step]
          rw [if_neg hz]
          rfl
        rw [h1]
        rcases halloc : new_prop_bt a seg with ⟨a2, o⟩
        cases o with
        | none => exact ⟨rfl, rfl⟩
        | some fresh =>
          have hfresh : fresh = .node seg none .nil .nil .nil := by
            unfold new_prop_bt at halloc
            rcases h2 : allocate_obj a (SIZEOF_PROP_BT + seg.length + 1) with ⟨a3, o2⟩
            rw [h2] at halloc
            cases o2 <;> simp at halloc
            exact halloc.2.symm
          have hres := find_prop_bt_none_foreach seg k hk fresh a2
          refine ⟨hres.1, ?_⟩
          simp only [prop_area.foreach_property]
          rw [hres.2, hfresh]
          rfl

/-- The allocating traversal over a segment list containing an empty
segment fails without creating an entry or changing the callback
list. -/
theorem add_empty_seg_aux (name value : List Char) :
    ∀ (segs : List (List Char)), [] ∈ segs → ∀ t a,
      ((segs.foldr (traverse_step true) (prop_end true name value)) t a).2.2 = none ∧
      prop_area.foreach_property
          ((segs.foldr (traverse_step true) (prop_end true name value)) t a).1 =
        prop_area.foreach_property t := by
  intro segs
  induction segs with
  | nil => intro h; cases h
  | cons seg rest ih =>
    intro h t a
    rw [List.foldr_cons]
    rcases List.mem_cons.mp h with heq | hrest
    · subst heq
      cases t with
      | nil => exact ⟨rfl, rfl⟩
      | node nm pr l c r =>
        have h1 : traverse_step true []
              (rest.foldr (traverse_step true) (prop_end true name value))
              (prop_bt.node nm pr l c r) a = (prop_bt.node nm pr l c r, a, none) := by
          simp only [traverse_step]
          rw [if_pos (show ([] : List Char).length = 0 from rfl)]
        rw [h1]
        exact ⟨rfl, rfl⟩
    · exact traverse_step_none_foreach seg _ (fun t2 a2 => ih hrest t2 a2) t a

/-- Claim C6: for every name containing an empty segment (a leading
dot, a trailing dot, or two consecutive dots), `find` returns nothing
and `add` fails, creating no entry (the callback list of the area is
unchanged, even though interior nodes may have been allocated). -/
theorem claim_C6_empty_segment_rejected (t : prop_bt) (a : AllocState)
    (name value : List Char) (h : [] ∈ splitName name) :
    prop_area.find t name = none ∧
    (prop_area.add t a name value).2.2 = none ∧
    prop_area.foreach_property (prop_area.add t a name value).1 =
      prop_area.foreach_property t := by
  refine ⟨?_, ?_, ?_⟩
  · rw [find_eq_findPure, findPure_empty_seg (splitName name) h t]
  · exact (add_empty_seg_aux name value (splitName name) h t a).1
  · exact (add_empty_seg_aux name value (splitName name) h t a).2

/-- Witness for claim C6 on the doubled-dot name `"a..b"` over the
fresh read-write area. -/
theorem claim_C6_empty_segment_rejected_witness :
    [] ∈ splitName "a..b".toList ∧
    (prop_area.find emptyRootNode "a..b".toList = none ∧
      (prop_area.add emptyRootNode { bytes_used := 0, pa_data_size := 130816 }
        "a..b".toList ['1']).2.2 = none ∧
      prop_area.foreach_property (prop_area.add emptyRootNode
          { bytes_used := 0, pa_data_size := 130816 } "a..b".toList ['1']).1 =
        prop_area.foreach_property emptyRootNode) :=
  ⟨by decide,
    claim_C6_empty_segment_rejected emptyRootNode
      { bytes_used := 0, pa_data_size := 130816 } "a..b".toList ['1'] (by decide)⟩

/-! ## Claim C7: the bump pointer never decreases and stays 4-aligned -/

/-- Reflexivity of `AllocAdvance`. -/
theorem allocAdvance_refl (a : AllocState) : AllocAdvance a a :=
  ⟨le_refl _, rfl, fun h => h⟩

/-- Transitivity of `AllocAdvance`. -/
theorem allocAdvance_trans {a b c : AllocState} :
    AllocAdvance a b → AllocAdvance b c → AllocAdvance a c :=
  fun h1 h2 => ⟨le_trans h1.1 h2.1, h2.2.1.trans h1.2.1, fun h => h2.2.2 (h1.2.2 h)⟩

/-- `allocate_obj` only advances the 4-aligned bump pointer. -/
theorem allocate_obj_advance (a : AllocState) (size : Nat) :
    AllocAdvance a (allocate_obj a size).1 := by
  rw [allocate_obj]
  split
  · exact allocAdvance_refl a
  · refine ⟨by simp, rfl, ?_⟩
    intro h
    have h4 : 4 ∣ bionic_align4 size := ⟨(size + 3) / 4, by rw [bionic_align4]; ring⟩
    exact Nat.dvd_add h h4

/-- `new_prop_bt` only advances the bump pointer. -/
theorem new_prop_bt_advance (a : AllocState) (name : List Char) :
    AllocAdvance a (new_prop_bt a name).1 := by
  rw [new_prop_bt]
  rcases h : allocate_obj a (SIZEOF_PROP_BT + name.length + 1) with ⟨a2, o⟩
  have := allocate_obj_advance a (SIZEOF_PROP_BT + name.length + 1)
  rw [h] at this
  cases o <;> exact this

/-- `new_prop_info` only advances the bump pointer. -/
theorem new_prop_info_advance (a : AllocState) (name value : List Char) :
    AllocAdvance a (new_prop_info a name value).1 := by
  rw [new_prop_info]
  rcases h : allocate_obj a (SIZEOF_PROP_INFO + name.length + 1) with ⟨a2, o⟩
  have h1 := allocate_obj_advance a (SIZEOF_PROP_INFO + name.length + 1)
  rw [h] at h1
  cases o with
  | none => exact h1
  | some off =>
    simp only []
    split
    · rcases h2 : allocate_obj a2 (value.length + 1) with ⟨a3, o2⟩
      have h3 := allocate_obj_advance a2 (value.length + 1)
      rw [h2] at h3
      cases o2 <;> exact allocAdvance_trans h1 h3
    · exact h1

/-- `find_prop_bt` only advances the bump pointer, given that its
continuation does. -/
theorem find_prop_bt_advance (allocIf : Bool) (seg : List Char) (k : TrieCont)
    (hk : ∀ t a, AllocAdvance a ((k t a).2.1)) :
    ∀ t a, AllocAdvance a ((find_prop_bt allocIf seg k t a).2.1) := by
  intro t
  induction t with
  | nil => intro a; exact allocAdvance_refl a
  | node nm pr l c r ihl ihc ihr =>
    intro a
    simp only [find_prop_bt]
    split
    · exact hk _ a
    · split
      · cases l with
        | node nm2 pr2 l2 c2 r2 => exact ihl a
        | nil =>
          cases allocIf with
          | false => exact allocAdvance_refl a
          | true =>
            simp only [if_pos rfl]
            rcases halloc : new_prop_bt a seg with ⟨a2, o⟩
            have h1 := new_prop_bt_advance a seg
            rw [halloc] at h1
            cases o with
            | none => exact h1
            | some fresh => exact allocAdvance_trans h1 (hk fresh a2)
      · cases r with
        | node nm2 pr2 l2 c2 r2 => exact ihr a
        | nil =>
          cases allocIf with
          | false => exact allocAdvance_refl a
          | true =>
            simp only [if_pos rfl]
            rcases halloc : new_prop_bt a seg with ⟨a2, o⟩
            have h1 := new_prop_bt_advance a seg
            rw [halloc] at h1
            cases o with
            | none => exact h1
            | some fresh => exact allocAdvance_trans h1 (hk fresh a2)

/-- The whole `find_property` traversal only advances the bump
pointer. -/
theorem find_property_advance (allocIf : Bool) (name value : List Char) :
    ∀ (segs : List (List Char)) (t : prop_bt) (a : AllocState),
      AllocAdvance a
        (((segs.foldr (traverse_step allocIf) (prop_end allocIf name value)) t a).2.1) := by
  intro segs
  induction segs with
  | nil =>
    intro t a
    rw [List.foldr_nil]
    cases t with
    | nil => exact allocAdvance_refl a
    | node nm pr l c r =>
      simp only [prop_end]
      cases pr with
      | some pi => exact allocAdvance_refl a
      | none =>
        cases allocIf with
        | false => exact allocAdvance_refl a
        | true =>
          simp only [if_pos rfl]
          rcases h : new_prop_info a name value with ⟨a2, o⟩
          have h1 := new_prop_info_advance a name value
          rw [h] at h1
          cases o <;> exact h1
  | cons seg rest ih =>
    intro t a
    rw [List.foldr_cons]
    cases t with
    | nil => exact allocAdvance_refl a
    | node nm pr l c r =>
      simp only [traverse_step]
      split
      · exact allocAdvance_refl a
      · cases c with
        | node nmc prc lc cc rc =>
          exact find_prop_bt_advance allocIf seg _ (fun t2 a2 => ih t2 a2) _ a
        | nil =>
          cases allocIf with
          | false => exact allocAdvance_refl a
          | true =>
            simp only [if_pos rfl]
            rcases halloc : new_prop_bt a seg with ⟨a2, o⟩
            have h1 := new_prop_bt_advance a seg
            rw [halloc] at h1
            cases o with
            | none => exact h1
            | some fresh =>
              exact allocAdvance_trans h1
                (find_prop_bt_advance true seg _ (fun t2 a2 => ih t2 a2) fresh a2)

/-- A single area operation only advances the bump pointer. -/
theorem applyAreaOp_advance (s : prop_bt × AllocState) (op : AreaOp) :
    AllocAdvance s.2 (applyAreaOp s op).2 := by
  rcases s with ⟨t, a⟩
  cases op with
  | add name value =>
    exact find_property_advance true name value (splitName name) t a
  | remove name prune => exact allocAdvance_refl a

/-- A sequence of area operations only advances the bump pointer. -/
theorem runAreaOps_advance :
    ∀ (ops : List AreaOp) (s : prop_bt × AllocState),
      AllocAdvance s.2 (runAreaOps s ops).2 := by
  intro ops
  induction ops with
  | nil => intro s; exact allocAdvance_refl s.2
  | cons op rest ih =>
    intro s
    rw [runAreaOps, List.foldl_cons]
    exact allocAdvance_trans (applyAreaOp_advance s op) (ih (applyAreaOp s op))

/-- Claim C7: over any sequence of `add` (successful or not) and
`remove`/prune operations, the area's `bytes_used` never decreases and
stays 4-byte aligned (pruning does not touch the allocator at all). -/
theorem claim_C7_bytes_used_monotone (t : prop_bt) (a : AllocState) (ops : List AreaOp)
    (h4 : 4 ∣ a.bytes_used) :
    a.bytes_used ≤ (runAreaOps (t, a) ops).2.bytes_used ∧
    4 ∣ (runAreaOps (t, a) ops).2.bytes_used := by
  have h := runAreaOps_advance ops (t, a)
  exact ⟨h.1, h.2.2 h4⟩

/-- Witness for claim C7: a concrete run with a successful add, a
pruning remove and a failing oversized add. -/
theorem claim_C7_bytes_used_monotone_witness :
    (4 ∣ (0 : Nat)) ∧
    ((0 : Nat) ≤ (runAreaOps (emptyRootNode, { bytes_used := 0, pa_data_size := 130816 })
        [AreaOp.add "a.b".toList ['1'], AreaOp.remove "a.b".toList true,
          AreaOp.add "c".toList ['2']]).2.bytes_used ∧
      4 ∣ (runAreaOps (emptyRootNode, { bytes_used := 0, pa_data_size := 130816 })
        [AreaOp.add "a.b".toList ['1'], AreaOp.remove "a.b".toList true,
          AreaOp.add "c".toList ['2']]).2.bytes_used) :=
  ⟨by decide,
    claim_C7_bytes_used_monotone emptyRootNode { bytes_used := 0, pa_data_size := 130816 }
      [AreaOp.add "a.b".toList ['1'], AreaOp.remove "a.b".toList true,
        AreaOp.add "c".toList ['2']] (by decide)⟩

/-! ## Claim C4: BinaryIndex routing -/

/-- `splitName` never yields the empty segment list. -/
theorem splitName_ne_nil : ∀ s : List Char, splitName s ≠ [] := by
  intro s
  induction s with
  | nil => simp [splitName]
  | cons ch rest ih =>
    rw [splitName]
    by_cases hc : ch = '.'
    · rw [if_pos hc]
      simp
    · rw [if_neg hc]
      rcases hs : splitName rest with _ | ⟨s1, ss⟩
      · exact absurd hs ih
      · simp

/-- One-step evaluation of the binary search on a single-element
array. -/
theorem binary_find_single (f : Int → Int) :
    binary_find f 0 0 = if f 0 = 0 then some 0 else none := by
  rw [binary_find.eq_def]
  norm_num
  by_cases h0 : f 0 = 0
  · rw [if_pos h0, if_pos h0]
  · rw [if_neg h0, if_neg h0]
    split
    · rw [binary_find.eq_def]
      norm_num
    · rw [binary_find.eq_def]
      norm_num

/-- The binary search of `FindChildForString` finds the `ctl` child of
the scenario-E root. -/
theorem ctl_child_lookup :
    ctlRootNode.FindChildForString ['c', 't', 'l'] = some ctlChildNode := by
  rw [TrieNode.FindChildForString]
  rw [show ((ctlRootNode.child_nodes.length : Int) - 1) = 0 from by decide]
  rw [binary_find_single]
  rfl

/-- The binary search of `FindChildForString` finds the `a` child of
the second C4 index's root. -/
theorem demo_child_lookup :
    demoRootNode.FindChildForString ['a'] = some demoLeafNode := by
  rw [TrieNode.FindChildForString]
  rw [show ((demoRootNode.child_nodes.length : Int) - 1) = 0 from by decide]
  rw [binary_find_single]
  rfl

/-- A nonempty list has a last element. -/
theorem getLast_of_ne_nil {α : Type} : ∀ (l : List α), l ≠ [] → ∃ x, l.getLast? = some x
  | [a], _ => ⟨a, by simp⟩
  | a :: b :: l, _ => by
    obtain ⟨x, hx⟩ := getLast_of_ne_nil (b :: l) (by simp)
    exact ⟨x, by rw [List.getLast?_cons_cons]; exact hx⟩

/-- The descent visits at least one node when the name has at least one
segment. -/
theorem descentPathSpec_ne_nil (segs : List (List Char)) (h : segs ≠ []) :
    ∀ node : TrieNode, descentPathSpec node segs ≠ [] := by
  intro node
  cases segs with
  | nil => exact absurd rfl h
  | cons seg rest =>
    cases rest with
    | nil => simp [descentPathSpec]
    | cons r1 rs => simp [descentPathSpec]

/-- The descent loop of the source equals the spec-side composition:
accumulate the current best over the visited path, then apply the leaf
rule at the last visited node. -/
theorem trieWalk_eq_spec : ∀ (segs : List (List Char)) (node : TrieNode) (b : Nat × Nat)
    (lf : TrieNode × List Char),
    (descentPathSpec node segs).getLast? = some lf →
    trieWalkIndexes node b.1 b.2 segs =
      routeLeafSpec lf.1 lf.2 (bestOfSpec b (descentPathSpec node segs)) := by
  intro segs
  induction segs with
  | nil => intro node b lf h; simp [descentPathSpec] at h
  | cons seg rest ih =>
    intro node b lf h
    cases rest with
    | nil =>
      have hlf : lf = (node, seg) := by
        have h2 : some ((node, seg) : TrieNode × List Char) = some lf := h
        exact (Option.some.inj h2).symm
      subst hlf
      rfl
    | cons r1 rs =>
      rcases hchild : node.FindChildForString seg with _ | child
      · have hpath : descentPathSpec node (seg :: r1 :: rs) =
            [(node, joinName (seg :: r1 :: rs))] := by
          simp only [descentPathSpec]
          rw [hchild]
        rw [hpath] at h ⊢
        have hlf : lf = (node, joinName (seg :: r1 :: rs)) := by
          have h2 : some ((node, joinName (seg :: r1 :: rs)) : TrieNode × List Char) =
              some lf := h
          exact (Option.some.inj h2).symm
        subst hlf
        have hwalk : trieWalkIndexes node b.1 b.2 (seg :: r1 :: rs) =
            trieLeafIndexes node (joinName (seg :: r1 :: rs))
              (nodeAccumSpec b node (joinName (seg :: r1 :: rs))).1
              (nodeAccumSpec b node (joinName (seg :: r1 :: rs))).2 := by
          simp only [trieWalkIndexes]
          rw [hchild]
          rfl
        rw [hwalk]
        rfl
      · have hne2 : descentPathSpec child (r1 :: rs) ≠ [] :=
          descentPathSpec_ne_nil (r1 :: rs) (by simp) child
        have hpath : descentPathSpec node (seg :: r1 :: rs) =
            (node, joinName (seg :: r1 :: rs)) :: descentPathSpec child (r1 :: rs) := by
          simp only [descentPathSpec]
          rw [hchild]
        rw [hpath] at h ⊢
        have hlast : ((node, joinName (seg :: r1 :: rs)) ::
            descentPathSpec child (r1 :: rs)).getLast? =
            (descentPathSpec child (r1 :: rs)).getLast? := by
          rcases hp : descentPathSpec child (r1 :: rs) with _ | ⟨p1, ps⟩
          · exact absurd hp hne2
          · rw [List.getLast?_cons_cons]
        rw [hlast] at h
        have hbest : bestOfSpec b ((node, joinName (seg :: r1 :: rs)) ::
            descentPathSpec child (r1 :: rs)) =
            bestOfSpec (nodeAccumSpec b node (joinName (seg :: r1 :: rs)))
              (descentPathSpec child (r1 :: rs)) := by
          simp only [bestOfSpec, List.foldl]
        rw [hbest]
        have hwalk : trieWalkIndexes node b.1 b.2 (seg :: r1 :: rs) =
            trieWalkIndexes child
              (nodeAccumSpec b node (joinName (seg :: r1 :: rs))).1
              (nodeAccumSpec b node (joinName (seg :: r1 :: rs))).2 (r1 :: rs) := by
          simp only [trieWalkIndexes]
          rw [hchild]
          rfl
        rw [hwalk]
        exact ih child (nodeAccumSpec b node (joinName (seg :: r1 :: rs))) lf h

/-- Claim C4: for every BinaryIndex and every routed name,
`GetPropertyInfoIndexes` returns the spec-side route — the indices of an
exact-match leaf when one matches the final remaining name (its `~0u`
fields falling back to the accumulated best), and otherwise the
remaining prefixes and then the most recently accumulated node or prefix
match of the descent.  In particular, with prefix `ctl.` mapped to label
7 and exact `ctl.start` to label 9, routing `"ctl.start"` yields 9 and
`"ctl.stop"` yields 7; and on the second index the `a` node's label 5
overrides the earlier `a.` prefix label 3, and the exact match `b` with
`~0u` indices falls back to it, so routing `"a.b"` yields 5. -/
theorem claim_C4_binary_index_routing :
    (∀ (root : TrieNode) (name : List Char),
      GetPropertyInfoIndexes root name = routeSpec root name) ∧
    (GetPropertyInfoIndexes ctlRootNode "ctl.start".toList).1 = 9 ∧
    (GetPropertyInfoIndexes ctlRootNode "ctl.stop".toList).1 = 7 ∧
    (GetPropertyInfoIndexes demoRootNode "a.b".toList).1 = 5 := by
  refine ⟨?_, ?_, ?_, ?_⟩
  · intro root name
    obtain ⟨lf, hlf⟩ := getLast_of_ne_nil (descentPathSpec root (splitName name))
      (descentPathSpec_ne_nil (splitName name) (splitName_ne_nil name) root)
    rw [GetPropertyInfoIndexes, routeSpec]
    simp only [hlf]
    exact trieWalk_eq_spec (splitName name) root (NO_INDEX, NO_INDEX) lf hlf
  · rw [GetPropertyInfoIndexes]
    rw [show splitName "ctl.start".toList = [['c','t','l'], ['s','t','a','r','t']] from rfl]
    rw [trieWalkIndexes]
    rw [ctl_child_lookup]
    rfl
  · rw [GetPropertyInfoIndexes]
    rw [show splitName "ctl.stop".toList = [['c','t','l'], ['s','t','o','p']] from rfl]
    rw [trieWalkIndexes]
    rw [ctl_child_lookup]
    rfl
  · rw [GetPropertyInfoIndexes]
    rw [show splitName "a.b".toList = [['a'], ['b']] from rfl]
    rw [trieWalkIndexes]
    rw [demo_child_lookup]
    rfl

/-! ## Claim C1: round trip through Add and Get -/

/-- `cmpCharList` is reflexive. -/
theorem cmpCharList_self : ∀ x : List Char, cmpCharList x x = 0 := by
  intro x
  induction x with
  | nil => rfl
  | cons ch rest ih =>
    rw [cmpCharList, if_neg (lt_irrefl ch), if_neg (lt_irrefl ch)]
    exact ih

/-- `cmp_prop_name` is reflexive. -/
theorem cmp_prop_name_self (x : List Char) : cmp_prop_name x x = 0 := by
  rw [cmp_prop_name, if_neg (lt_irrefl x.length), if_neg (lt_irrefl x.length),
    strncmpL]
  exact cmpCharList_self (x.take x.length)

/-- `traverse_step` always hands back a node with the same name. -/
theorem traverse_step_keepsName (b : Bool) (seg : List Char) (k : TrieCont) :
    KeepsNodeName (traverse_step b seg k) := by
  intro nm pr l c r a
  simp only [traverse_step]
  split
  · exact ⟨pr, l, c, r, rfl⟩
  · cases c with
    | node nmc prc lc cc rc => exact ⟨pr, l, _, r, rfl⟩
    | nil =>
      cases b with
      | false => exact ⟨pr, l, .nil, r, rfl⟩
      | true =>
        simp only [if_pos rfl]
        rcases new_prop_bt a seg with ⟨a2, o⟩
        cases o with
        | some fresh => exact ⟨pr, l, _, r, rfl⟩
        | none => exact ⟨pr, l, .nil, r, rfl⟩

/-- `prop_end` always hands back a node with the same name. -/
theorem prop_end_keepsName (b : Bool) (name value : List Char) :
    KeepsNodeName (prop_end b name value) := by
  intro nm pr l c r a
  simp only [prop_end]
  cases pr with
  | some pi => exact ⟨some pi, l, c, r, rfl⟩
  | none =>
    cases b with
    | false => exact ⟨none, l, c, r, rfl⟩
    | true =>
      simp only [if_pos rfl]
      rcases new_prop_info a name value with ⟨a2, o⟩
      cases o with
      | some pi => exact ⟨some pi, l, c, r, rfl⟩
      | none => exact ⟨none, l, c, r, rfl⟩

/-- Every traversal continuation built from `traverse_step` over
`prop_end` keeps node names. -/
theorem foldr_add_keepsName (b : Bool) (name value : List Char) :
    ∀ segs : List (List Char),
      KeepsNodeName (segs.foldr (traverse_step b) (prop_end b name value)) := by
  intro segs
  cases segs with
  | nil => exact prop_end_keepsName b name value
  | cons seg rest => exact traverse_step_keepsName b seg _

/-- If the allocating BST step returns an entry, the entry is found
again by a fresh `findBst` on the updated tree, below the updated node,
provided the continuation guarantees the same below the node it
updates. -/
theorem find_prop_bt_find_back (seg : List Char) (k : TrieCont)
    (Phi : prop_bt → Option prop_info)
    (hname : KeepsNodeName k)
    (hk : ∀ t a pi, (k t a).2.2 = some pi → Phi ((k t a).1) = some pi) :
    ∀ t a pi, (find_prop_bt true seg k t a).2.2 = some pi →
      ∃ m2, findBst seg ((find_prop_bt true seg k t a).1) = some m2 ∧
        Phi m2 = some pi := by
  intro t
  induction t with
  | nil => intro a pi h; cases h
  | node nm pr l c r ihl ihc ihr =>
    intro a pi h
    by_cases h0 : cmp_prop_name seg nm = 0
    · have h1 : find_prop_bt true seg k (prop_bt.node nm pr l c r) a
          = k (prop_bt.node nm pr l c r) a := by
        simp only [find_prop_bt]
        rw [if_pos h0]
      rw [h1] at h ⊢
      obtain ⟨pr2, l2, c2, r2, hk1⟩ := hname nm pr l c r a
      refine ⟨(k (prop_bt.node nm pr l c r) a).1, ?_, hk _ a pi h⟩
      rw [hk1, findBst, if_pos h0]
    · by_cases hlt : cmp_prop_name seg nm < 0
      · cases l with
        | nil =>
          rcases halloc : new_prop_bt a seg with ⟨a2, o⟩
          cases o with
          | none =>
            have h1 : find_prop_bt true seg k (prop_bt.node nm pr .nil c r) a
                = (prop_bt.node nm pr .nil c r, a2, none) := by
              simp only [find_prop_bt]
              rw [if_neg h0, if_pos hlt]
              rw [halloc]
              simp
            rw [h1] at h
            cases h
          | some fresh =>
            have h1 : find_prop_bt true seg k (prop_bt.node nm pr .nil c r) a
                = (prop_bt.node nm pr (k fresh a2).1 c r,
                   (k fresh a2).2.1, (k fresh a2).2.2) := by
              simp only [find_prop_bt]
              rw [if_neg h0, if_pos hlt]
              rw [halloc]
              simp
            rw [h1] at h ⊢
            have hfresh : fresh = .node seg none .nil .nil .nil := by
              unfold new_prop_bt at halloc
              rcases h2 : allocate_obj a (SIZEOF_PROP_BT + seg.length + 1) with ⟨a3, o2⟩
              rw [h2] at halloc
              cases o2 <;> simp at halloc
              exact halloc.2.symm
            subst hfresh
            obtain ⟨pr2, l2, c2, r2, hk1⟩ := hname seg none .nil .nil .nil a2
            refine ⟨(k (prop_bt.node seg none .nil .nil .nil) a2).1, ?_, hk _ a2 pi h⟩
            simp only []
            rw [findBst, if_neg h0, if_pos hlt, hk1, findBst,
              if_pos (cmp_prop_name_self seg), ← hk1]
        | node nm2 pr2 l2 c2 r2 =>
          have h1 : find_prop_bt true seg k
                (prop_bt.node nm pr (prop_bt.node nm2 pr2 l2 c2 r2) c r) a
              = (prop_bt.node nm pr
                   (find_prop_bt true seg k (prop_bt.node nm2 pr2 l2 c2 r2) a).1 c r,
                 (find_prop_bt true seg k (prop_bt.node nm2 pr2 l2 c2 r2) a).2.1,
                 (find_prop_bt true seg k (prop_bt.node nm2 pr2 l2 c2 r2) a).2.2) := by
            simp only [find_prop_bt]
            rw [if_neg h0, if_pos hlt]
          rw [h1] at h ⊢
          obtain ⟨m2, hbst, hPhi⟩ := ihl a pi h
          refine ⟨m2, ?_, hPhi⟩
          rw [findBst, if_neg h0, if_pos hlt]
          exact hbst
      · cases r with
        | nil =>
          rcases halloc : new_prop_bt a seg with ⟨a2, o⟩
          cases o with
          | none =>
            have h1 : find_prop_bt true seg k (prop_bt.node nm pr l c .nil) a
                = (prop_bt.node nm pr l c .nil, a2, none) := by
              simp only [find_prop_bt]
              rw [if_neg h0, if_neg hlt]
              rw [halloc]
              simp
            rw [h1] at h
            cases h
          | some fresh =>
            have h1 : find_prop_bt true seg k (prop_bt.node nm pr l c .nil) a
                = (prop_bt.node nm pr l c (k fresh a2).1,
                   (k fresh a2).2.1, (k fresh a2).2.2) := by
              simp only [find_prop_bt]
              rw [if_neg h0, if_neg hlt]
              rw [halloc]
              simp
            rw [h1] at h ⊢
            have hfresh : fresh = .node seg none .nil .nil .nil := by
              unfold new_prop_bt at halloc
              rcases h2 : allocate_obj a (SIZEOF_PROP_BT + seg.length + 1) with ⟨a3, o2⟩
              rw [h2] at halloc
              cases o2 <;> simp at halloc
              exact halloc.2.symm
            subst hfresh
            obtain ⟨pr2, l2, c2, r2, hk1⟩ := hname seg none .nil .nil .nil a2
            refine ⟨(k (prop_bt.node seg none .nil .nil .nil) a2).1, ?_, hk _ a2 pi h⟩
            simp only []
            rw [findBst, if_neg h0, if_neg hlt, hk1, findBst,
              if_pos (cmp_prop_name_self seg), ← hk1]
        | node nm2 pr2 l2 c2 r2 =>
          have h1 : find_prop_bt true seg k
                (prop_bt.node nm pr l c (prop_bt.node nm2 pr2 l2 c2 r2)) a
              = (prop_bt.node nm pr l c
                   (find_prop_bt true seg k (prop_bt.node nm2 pr2 l2 c2 r2) a).1,
                 (find_prop_bt true seg k (prop_bt.node nm2 pr2 l2 c2 r2) a).2.1,
                 (find_prop_bt true seg k (prop_bt.node nm2 pr2 l2 c2 r2) a).2.2) := by
            simp only [find_prop_bt]
            rw [if_neg h0, if_neg hlt]
          rw [h1] at h ⊢
          obtain ⟨m2, hbst, hPhi⟩ := ihr a pi h
          refine ⟨m2, ?_, hPhi⟩
          rw [findBst, if_neg h0, if_neg hlt]
          exact hbst

/-- Unfolding of the pure lookup at a non-empty segment. -/
theorem findPure_cons (seg : List Char) (rest : List (List Char))
    (nm : List Char) (pr : Option prop_info) (l c r : prop_bt)
    (hz : ¬ seg.length = 0) :
    findPure (seg :: rest) (.node nm pr l c r) =
      (match findBst seg c with
       | some m => findPure rest m
       | none => none) := by
  simp only [findPure, navPure]
  rw [if_neg hz]
  cases findBst seg c <;> rfl

/-- An entry returned by the allocating traversal is found again by the
pure lookup on the updated tree. -/
theorem add_find_back (name value : List Char) :
    ∀ (segs : List (List Char)) (t : prop_bt) (a : AllocState) (pi : prop_info),
      ((segs.foldr (traverse_step true) (prop_end true name value)) t a).2.2 = some pi →
      findPure segs
          (((segs.foldr (traverse_step true) (prop_end true name value)) t a).1) =
        some pi := by
  intro segs
  induction segs with
  | nil =>
    intro t a pi h
    rw [List.foldr_nil] at h ⊢
    cases t with
    | nil => cases h
    | node nm pr l c r =>
      cases pr with
      | some pi0 =>
        have h1 : prop_end true name value (prop_bt.node nm (some pi0) l c r) a =
            (prop_bt.node nm (some pi0) l c r, a, some pi0) := rfl
        rw [h1] at h ⊢
        cases h
        rfl
      | none =>
        rcases halloc : new_prop_info a name value with ⟨a2, o⟩
        cases o with
        | none =>
          have h1 : prop_end true name value (prop_bt.node nm none l c r) a =
              (prop_bt.node nm none l c r, a2, none) := by
            simp only [prop_end]
            rw [halloc]
            simp
          rw [h1] at h
          cases h
        | some pi0 =>
          have h1 : prop_end true name value (prop_bt.node nm none l c r) a =
              (prop_bt.node nm (some pi0) l c r, a2, some pi0) := by
            simp only [prop_end]
            rw [halloc]
            simp
          rw [h1] at h ⊢
          cases h
          rfl
  | cons seg rest ih =>
    intro t a pi h
    rw [List.foldr_cons] at h ⊢
    cases t with
    | nil => cases h
    | node nm pr l c r =>
      by_cases hz : seg.length = 0
      · have h1 : traverse_step true seg
              (rest.foldr (traverse_step true) (prop_end true name value))
              (prop_bt.node nm pr l c r) a = (prop_bt.node nm pr l c r, a, none) := by
          simp only [traverse_step]
          rw [if_pos hz]
        rw [h1] at h
        cases h
      · cases c with
        | node nmc prc lc cc rc =>
          have h1 : traverse_step true seg
                (rest.foldr (traverse_step true) (prop_end true name value))
                (prop_bt.node nm pr l (prop_bt.node nmc prc lc cc rc) r) a =
              (prop_bt.node nm pr l
                 (find_prop_bt true seg
                   (rest.foldr (traverse_step true) (prop_end true name value))
                   (prop_bt.node nmc prc lc cc rc) a).1 r,
               (find_prop_bt true seg
                 (rest.foldr (traverse_step true) (prop_end true name value))
                 (prop_bt.node nmc prc lc cc rc) a).2.1,
               (find_prop_bt true seg
                 (rest.foldr (traverse_step true) (prop_end true name value))
                 (prop_bt.node nmc prc lc cc rc) a).2.2) := by
            simp only [traverse_step]
            rw [if_neg hz]
          rw [h1] at h ⊢
          obtain ⟨m2, hbst, hPhi⟩ := find_prop_bt_find_back seg
            (rest.foldr (traverse_step true) (prop_end true name value))
            (findPure rest) (foldr_add_keepsName true name value rest)
            (fun t2 a2 pi2 h2 => ih t2 a2 pi2 h2)
            (prop_bt.node nmc prc lc cc rc) a pi h
          rw [findPure_cons seg rest nm pr l _ r hz, hbst]
          exact hPhi
        | nil =>
          rcases halloc : new_prop_bt a seg with ⟨a2, o⟩
          cases o with
          | none =>
            have h1 : traverse_step true seg
                  (rest.foldr (traverse_step true) (prop_end true name value))
                  (prop_bt.node nm pr l .nil r) a =
                (prop_bt.node nm pr l .nil r, a2, none) := by
              simp only [traverse_step]
              rw [if_neg hz, halloc]
              simp
            rw [h1] at h
            cases h
          | some fresh =>
            have h1 : traverse_step true seg
                  (rest.foldr (traverse_step true) (prop_end true name value))
                  (prop_bt.node nm pr l .nil r) a =
                (prop_bt.node nm pr l
                   (find_prop_bt true seg
                     (rest.foldr (traverse_step true) (prop_end true name value))
                     fresh a2).1 r,
                 (find_prop_bt true seg
                   (rest.foldr (traverse_step true) (prop_end true name value))
                   fresh a2).2.1,
                 (find_prop_bt true seg
                   (rest.foldr (traverse_step true) (prop_end true name value))
                   fresh a2).2.2) := by
              simp only [traverse_step]
              rw [if_neg hz, halloc]
              simp
            rw [h1] at h ⊢
            obtain ⟨m2, hbst, hPhi⟩ := find_prop_bt_find_back seg
              (rest.foldr (traverse_step true) (prop_end true name value))
              (findPure rest) (foldr_add_keepsName true name value rest)
              (fun t2 a2 pi2 h2 => ih t2 a2 pi2 h2) fresh a2 pi h
            rw [findPure_cons seg rest nm pr l _ r hz, hbst]
            exact hPhi

/-- If the allocating BST step returned an entry, the continuation
produced it either at the node the search finds or at a freshly
zero-constructed node named after the segment. -/
theorem find_prop_bt_source (seg : List Char) (k : TrieCont)
    (Psi : prop_bt → prop_info → Prop)
    (hk : ∀ t a pi, (k t a).2.2 = some pi → Psi t pi) :
    ∀ t a pi, (find_prop_bt true seg k t a).2.2 = some pi →
      ((∃ m, findBst seg t = some m ∧ Psi m pi) ∨
        Psi (.node seg none .nil .nil .nil) pi) := by
  intro t
  induction t with
  | nil => intro a pi h; cases h
  | node nm pr l c r ihl ihc ihr =>
    intro a pi h
    by_cases h0 : cmp_prop_name seg nm = 0
    · have h1 : find_prop_bt true seg k (prop_bt.node nm pr l c r) a
          = k (prop_bt.node nm pr l c r) a := by
        simp only [find_prop_bt]
        rw [if_pos h0]
      rw [h1] at h
      left
      refine ⟨prop_bt.node nm pr l c r, ?_, hk _ a pi h⟩
      rw [findBst, if_pos h0]
    · by_cases hlt : cmp_prop_name seg nm < 0
      · cases l with
        | nil =>
          rcases halloc : new_prop_bt a seg with ⟨a2, o⟩
          cases o with
          | none =>
            have h1 : find_prop_bt true seg k (prop_bt.node nm pr .nil c r) a
                = (prop_bt.node nm pr .nil c r, a2, none) := by
              simp only [find_prop_bt]
              rw [if_neg h0, if_pos hlt, halloc]
              simp
            rw [h1] at h
            cases h
          | some fresh =>
            have h1 : find_prop_bt true seg k (prop_bt.node nm pr .nil c r) a
                = (prop_bt.node nm pr (k fresh a2).1 c r,
                   (k fresh a2).2.1, (k fresh a2).2.2) := by
              simp only [find_prop_bt]
              rw [if_neg h0, if_pos hlt, halloc]
              simp
            rw [h1] at h
            have hfresh : fresh = .node seg none .nil .nil .nil := by
              unfold new_prop_bt at halloc
              rcases h2 : allocate_obj a (SIZEOF_PROP_BT + seg.length + 1) with ⟨a3, o2⟩
              rw [h2] at halloc
              cases o2 <;> simp at halloc
              exact halloc.2.symm
            right
            rw [← hfresh]
            exact hk fresh a2 pi h
        | node nm2 pr2 l2 c2 r2 =>
          have h1 : find_prop_bt true seg k
                (prop_bt.node nm pr (prop_bt.node nm2 pr2 l2 c2 r2) c r) a
              = (prop_bt.node nm pr
                   (find_prop_bt true seg k (prop_bt.node nm2 pr2 l2 c2 r2) a).1 c r,
                 (find_prop_bt true seg k (prop_bt.node nm2 pr2 l2 c2 r2) a).2.1,
                 (find_prop_bt true seg k (prop_bt.node nm2 pr2 l2 c2 r2) a).2.2) := by
            simp only [find_prop_bt]
            rw [if_neg h0, if_pos hlt]
          rw [h1] at h
          rcases ihl a pi h with ⟨m, hbst, hPsi⟩ | hPsi
          · left
            refine ⟨m, ?_, hPsi⟩
            rw [findBst, if_neg h0, if_pos hlt]
            exact hbst
          · right
            exact hPsi
      · cases r with
        | nil =>
          rcases halloc : new_prop_bt a seg with ⟨a2, o⟩
          cases o with
          | none =>
            have h1 : find_prop_bt true seg k (prop_bt.node nm pr l c .nil) a
                = (prop_bt.node nm pr l c .nil, a2, none) := by
              simp only [find_prop_bt]
              rw [if_neg h0, if_neg hlt, halloc]
              simp
            rw [h1] at h
            cases h
          | some fresh =>
            have h1 : find_prop_bt true seg k (prop_bt.node nm pr l c .nil) a
                = (prop_bt.node nm pr l c (k fresh a2).1,
                   (k fresh a2).2.1, (k fresh a2).2.2) := by
              simp only [find_prop_bt]
              rw [if_neg h0, if_neg hlt, halloc]
              simp
            rw [h1] at h
            have hfresh : fresh = .node seg none .nil .nil .nil := by
              unfold new_prop_bt at halloc
              rcases h2 : allocate_obj a (SIZEOF_PROP_BT + seg.length + 1) with ⟨a3, o2⟩
              rw [h2] at halloc
              cases o2 <;> simp at halloc
              exact halloc.2.symm
            right
            rw [← hfresh]
            exact hk fresh a2 pi h
        | node nm2 pr2 l2 c2 r2 =>
          have h1 : find_prop_bt true seg k
                (prop_bt.node nm pr l c (prop_bt.node nm2 pr2 l2 c2 r2)) a
              = (prop_bt.node nm pr l c
                   (find_prop_bt true seg k (prop_bt.node nm2 pr2 l2 c2 r2) a).1,
                 (find_prop_bt true seg k (prop_bt.node nm2 pr2 l2 c2 r2) a).2.1,
                 (find_prop_bt true seg k (prop_bt.node nm2 pr2 l2 c2 r2) a).2.2) := by
            simp only [find_prop_bt]
            rw [if_neg h0, if_neg hlt]
          rw [h1] at h
          rcases ihr a pi h with ⟨m, hbst, hPsi⟩ | hPsi
          · left
            refine ⟨m, ?_, hPsi⟩
            rw [findBst, if_neg h0, if_neg hlt]
            exact hbst
          · right
            exact hPsi

/-- A freshly allocated node holds no entry under any further
segments. -/
theorem findPure_fresh (seg : List Char) :
    ∀ rest : List (List Char),
      findPure rest (.node seg none .nil .nil .nil) = none := by
  intro rest
  cases rest with
  | nil => rfl
  | cons s2 r2 =>
    simp only [findPure, navPure]
    by_cases hz : s2.length = 0
    · rw [if_pos hz]
    · rw [if_neg hz]
      rfl

/-- An entry returned by the allocating traversal over a name that the
pure lookup could not find was created by `new_prop_info` for this name
and value. -/
theorem add_fresh_value (name value : List Char) :
    ∀ (segs : List (List Char)) (t : prop_bt) (a : AllocState) (pi : prop_info),
      findPure segs t = none →
      ((segs.foldr (traverse_step true) (prop_end true name value)) t a).2.2 = some pi →
      ∃ a2 a3, new_prop_info a2 name value = (a3, some pi) := by
  intro segs
  induction segs with
  | nil =>
    intro t a pi hfind h
    rw [List.foldr_nil] at h
    cases t with
    | nil => cases h
    | node nm pr l c r =>
      cases pr with
      | some pi0 => cases hfind
      | none =>
        rcases halloc : new_prop_info a name value with ⟨a2, o⟩
        cases o with
        | none =>
          have h1 : prop_end true name value (prop_bt.node nm none l c r) a =
              (prop_bt.node nm none l c r, a2, none) := by
            simp only [prop_end]
            rw [halloc]
            simp
          rw [h1] at h
          cases h
        | some pi0 =>
          have h1 : prop_end true name value (prop_bt.node nm none l c r) a =
              (prop_bt.node nm (some pi0) l c r, a2, some pi0) := by
            simp only [prop_end]
            rw [halloc]
            simp
          rw [h1] at h
          cases h
          exact ⟨a, a2, halloc⟩
  | cons seg rest ih =>
    intro t a pi hfind h
    rw [List.foldr_cons] at h
    cases t with
    | nil => cases h
    | node nm pr l c r =>
      by_cases hz : seg.length = 0
      · have h1 : traverse_step true seg
              (rest.foldr (traverse_step true) (prop_end true name value))
              (prop_bt.node nm pr l c r) a = (prop_bt.node nm pr l c r, a, none) := by
          simp only [traverse_step]
          rw [if_pos hz]
        rw [h1] at h
        cases h
      · rw [findPure_cons seg rest nm pr l c r hz] at hfind
        cases c with
        | node nmc prc lc cc rc =>
          have h1 : traverse_step true seg
                (rest.foldr (traverse_step true) (prop_end true name value))
                (prop_bt.node nm pr l (prop_bt.node nmc prc lc cc rc) r) a =
              (prop_bt.node nm pr l
                 (find_prop_bt true seg
                   (rest.foldr (traverse_step true) (prop_end true name value))
                   (prop_bt.node nmc prc lc cc rc) a).1 r,
               (find_prop_bt true seg
                 (rest.foldr (traverse_step true) (prop_end true name value))
                 (prop_bt.node nmc prc lc cc rc) a).2.1,
               (find_prop_bt true seg
                 (rest.foldr (traverse_step true) (prop_end true name value))
                 (prop_bt.node nmc prc lc cc rc) a).2.2) := by
            simp only [traverse_step]
            rw [if_neg hz]
          rw [h1] at h
          rcases find_prop_bt_source seg
              (rest.foldr (traverse_step true) (prop_end true name value))
              (fun t2 pi2 => findPure rest t2 = none →
                ∃ a2 a3, new_prop_info a2 name value = (a3, some pi2))
              (fun t2 a2 pi2 h2 hf => ih t2 a2 pi2 hf h2)
              (prop_bt.node nmc prc lc cc rc) a pi h with ⟨m, hbst, hPsi⟩ | hPsi
          · rw [hbst] at hfind
            exact hPsi hfind
          · exact hPsi (findPure_fresh seg rest)
        | nil =>
          rcases halloc : new_prop_bt a seg with ⟨a2, o⟩
          cases o with
          | none =>
            have h1 : traverse_step true seg
                  (rest.foldr (traverse_step true) (prop_end true name value))
                  (prop_bt.node nm pr l .nil r) a =
                (prop_bt.node nm pr l .nil r, a2, none) := by
              simp only [traverse_step]
              rw [if_neg hz, halloc]
              simp
            rw [h1] at h
            cases h
          | some fresh =>
            have h1 : traverse_step true seg
                  (rest.foldr (traverse_step true) (prop_end true name value))
                  (prop_bt.node nm pr l .nil r) a =
                (prop_bt.node nm pr l
                   (find_prop_bt true seg
                     (rest.foldr (traverse_step true) (prop_end true name value))
                     fresh a2).1 r,
                 (find_prop_bt true seg
                   (rest.foldr (traverse_step true) (prop_end true name value))
                   fresh a2).2.1,
                 (find_prop_bt true seg
                   (rest.foldr (traverse_step true) (prop_end true name value))
                   fresh a2).2.2) := by
              simp only [traverse_step]
              rw [if_neg hz, halloc]
              simp
            rw [h1] at h
            have hfresh : fresh = .node seg none .nil .nil .nil := by
              unfold new_prop_bt at halloc
              rcases h2 : allocate_obj a (SIZEOF_PROP_BT + seg.length + 1) with ⟨a3, o2⟩
              rw [h2] at halloc
              cases o2 <;> simp at halloc
              exact halloc.2.symm
            rcases find_prop_bt_source seg
                (rest.foldr (traverse_step true) (prop_end true name value))
                (fun t2 pi2 => findPure rest t2 = none →
                  ∃ a2 a3, new_prop_info a2 name value = (a3, some pi2))
                (fun t2 a2 pi2 h2 hf => ih t2 a2 pi2 hf h2)
                fresh a2 pi h with ⟨m, hbst, hPsi⟩ | hPsi
            · rw [hfresh, findBst, if_pos (cmp_prop_name_self seg)] at hbst
              cases hbst
              exact hPsi (findPure_fresh seg rest)
            · exact hPsi (findPure_fresh seg rest)

/-- In the short case `new_prop_info` constructs exactly the short-form
entry. -/
theorem new_prop_info_short (a a2 : AllocState) (name value : List Char)
    (pi : prop_info) (hlen : value.length < PROP_VALUE_MAX)
    (h : new_prop_info a name value = (a2, some pi)) :
    pi = prop_info.mkShort name value := by
  unfold new_prop_info at h
  rcases h1 : allocate_obj a (SIZEOF_PROP_INFO + name.length + 1) with ⟨a3, o⟩
  rw [h1] at h
  cases o with
  | none => simp at h
  | some off =>
    rw [show (match ((a3, some off) : AllocState × Option Nat) with
        | (a2, none) => (a2, (none : Option prop_info))
        | (a2, some _) =>
          if value.length ≥ PROP_VALUE_MAX then
            match allocate_obj a2 (value.length + 1) with
            | (a4, none) => (a4, none)
            | (a4, some _) => (a4, some (prop_info.mkLong name value))
          else (a2, some (prop_info.mkShort name value)))
        = (if value.length ≥ PROP_VALUE_MAX then
            match allocate_obj a3 (value.length + 1) with
            | (a4, none) => (a4, (none : Option prop_info))
            | (a4, some _) => (a4, some (prop_info.mkLong name value))
          else (a3, some (prop_info.mkShort name value))) from rfl] at h
    rw [if_neg (by omega : ¬ value.length ≥ PROP_VALUE_MAX)] at h
    rw [Prod.mk.injEq, Option.some.injEq] at h
    exact h.2.symm

/-- Reading a short-form entry returns its value and length. -/
theorem read_mkShort (name value bk : List Char) :
    SystemProperties.Read (prop_info.mkShort name value) bk = (value, value.length) := by
  rw [SystemProperties.Read, ReadMutablePropertyValue]
  have hs : (prop_info.mkShort name value).serial = value.length <<< 24 := rfl
  have hv : (prop_info.mkShort name value).value = value := rfl
  have hlen2 : SERIAL_VALUE_LEN (value.length <<< 24) = value.length := by
    rw [SERIAL_VALUE_LEN, Nat.shiftLeft_eq, Nat.shiftRight_eq_div_pow]
    omega
  have hdirty : SERIAL_DIRTY (value.length <<< 24) = false := by
    rw [SERIAL_DIRTY, land_one_eq_mod, Nat.shiftLeft_eq]
    have he : value.length * 2 ^ 24 % 2 = 0 := by omega
    rw [he]
    decide
  simp only [hs, hv, hdirty, hlen2, if_neg (by simp : ¬ false = true)]
  rw [List.take_length]

/-- Claim C1, counterexample: on a store that already holds an entry
for the name, `Add` succeeds (it returns the existing entry) but `Get`
still returns the old value, not the newly supplied one. -/
theorem claim_C1_counterexample :
    (SystemProperties.Add (SystemProperties.Add initSysState "a.b".toList ['0']).1
        "a.b".toList ['1']).2 = true ∧
    SystemProperties.Get (SystemProperties.Add (SystemProperties.Add initSysState
        "a.b".toList ['0']).1 "a.b".toList ['1']).1 "a.b".toList = (['0'], 1) ∧
    (((['0'] : List Char), (1 : Nat)) ≠ ((['1'] : List Char), (1 : Nat))) := by
  refine ⟨?_, ?_, ?_⟩ <;> decide

/-- Claim C1 as amended: for every valid dotted name not yet present in
the store (`Find` returns nothing) and every value of length below
PROP_VALUE_MAX, after a successful `Add` a subsequent `Get` returns
exactly the value and its length. -/
theorem claim_C1_roundtrip_amended (st : SysState) (name value : List Char)
    (st2 : SysState)
    (hfind : SystemProperties.Find st name = none)
    (hlen : value.length < PROP_VALUE_MAX)
    (hadd : SystemProperties.Add st name value = (st2, true)) :
    SystemProperties.Get st2 name = (value, value.length) := by
  unfold SystemProperties.Add at hadd
  split at hadd
  · simp at hadd
  split at hadd
  · simp at hadd
  split at hadd
  · simp at hadd
  next hinit =>
  split at hadd
  · simp at hadd
  simp only [] at hadd
  rcases hpi : (prop_area.add st.root st.alloc name value).2.2 with _ | pi
  · rw [hpi] at hadd
    simp at hadd
  · rw [hpi] at hadd
    rw [Prod.mk.injEq] at hadd
    have hst2 := hadd.1
    have hinit2 : st.initialized = true := by
      cases hb : st.initialized
      · rw [hb] at hinit
        simp at hinit
      · rfl
    have hroot : st2.root = (prop_area.add st.root st.alloc name value).1 := by
      rw [← hst2]
    have hinit3 : st2.initialized = true := by
      rw [← hst2]
      exact hinit2
    have hbk : st2.dirty_backup = st.dirty_backup := by
      rw [← hst2]
    -- the entry is fresh and carries the new value
    have hfp : findPure (splitName name) st.root = none := by
      rw [SystemProperties.Find, hinit2] at hfind
      simp only [Bool.not_true, if_neg (by simp : ¬ false = true)] at hfind
      rw [find_eq_findPure] at hfind
      exact hfind
    have hshort : pi = prop_info.mkShort name value := by
      obtain ⟨a2, a3, hnew⟩ := add_fresh_value name value (splitName name)
        st.root st.alloc pi hfp hpi
      exact new_prop_info_short a2 a3 name value pi hlen hnew
    have hback : findPure (splitName name)
        ((prop_area.add st.root st.alloc name value).1) = some pi :=
      add_find_back name value (splitName name) st.root st.alloc pi hpi
    have hF : SystemProperties.Find st2 name = some pi := by
      rw [SystemProperties.Find, hinit3]
      simp only [Bool.not_true, if_neg (by simp : ¬ false = true)]
      rw [find_eq_findPure, hroot]
      exact hback
    rw [SystemProperties.Get, hF, hshort, hbk]
    exact read_mkShort name value st.dirty_backup

/-- Witness for the amended claim C1 on the fresh store. -/
theorem claim_C1_roundtrip_amended_witness :
    SystemProperties.Find initSysState "a.b".toList = none ∧
    List.length ['1'] < PROP_VALUE_MAX ∧
    SystemProperties.Add initSysState "a.b".toList ['1'] =
      ((SystemProperties.Add initSysState "a.b".toList ['1']).1, true) ∧
    SystemProperties.Get (SystemProperties.Add initSysState "a.b".toList ['1']).1
      "a.b".toList = (['1'], List.length ['1']) :=
  ⟨by decide, by decide, by decide,
    claim_C1_roundtrip_amended initSysState "a.b".toList ['1']
      (SystemProperties.Add initSysState "a.b".toList ['1']).1
      (by decide) (by decide) (by decide)⟩

/-! ## Claim C3: remove with pruning -/

/-- `cmpCharList` separates lists. -/
theorem cmpCharList_eq : ∀ a b : List Char, cmpCharList a b = 0 → a = b := by
  intro a
  induction a with
  | nil =>
    intro b h
    cases b with
    | nil => rfl
    | cons bh bt => simp [cmpCharList] at h
  | cons ah at2 ih =>
    intro b h
    cases b with
    | nil => simp [cmpCharList] at h
    | cons bh bt =>
      rw [cmpCharList] at h
      by_cases h1 : ah < bh
      · rw [if_pos h1] at h
        cases h
      · rw [if_neg h1] at h
        by_cases h2 : bh < ah
        · rw [if_pos h2] at h
          cases h
        · rw [if_neg h2] at h
          have hab : ah = bh := le_antisymm (le_of_not_lt h2) (le_of_not_lt h1)
          rw [hab, ih bt h]

/-- `cmp_prop_name` separates names. -/
theorem cmp_prop_name_eq (a b : List Char) (h : cmp_prop_name a b = 0) : a = b := by
  rw [cmp_prop_name] at h
  by_cases h1 : a.length < b.length
  · rw [if_pos h1] at h
    cases h
  · rw [if_neg h1] at h
    by_cases h2 : b.length < a.length
    · rw [if_pos h2] at h
      cases h
    · rw [if_neg h2] at h
      have hl : a.length = b.length := by omega
      rw [strncmpL, List.take_length] at h
      rw [hl, List.take_length] at h
      exact cmpCharList_eq a b h

/-- `joinName` undoes `splitName`. -/
theorem joinName_splitName : ∀ s : List Char, joinName (splitName s) = s := by
  intro s
  induction s with
  | nil => rfl
  | cons ch rest ih =>
    rcases hs : splitName rest with _ | ⟨s1, ss⟩
    · exact absurd hs (splitName_ne_nil rest)
    · rw [hs] at ih
      rw [splitName]
      by_cases hc : ch = '.'
      · rw [if_pos hc, hs]
        simp only [joinName]
        rw [ih, hc]
        rfl
      · rw [if_neg hc, hs]
        cases ss with
        | nil =>
          simp only [joinName] at ih ⊢
          rw [ih]
        | cons s2 ss2 =>
          simp only [joinName] at ih ⊢
          rw [List.cons_append, ih]

/-- `splitName` is injective. -/
theorem splitName_inj (a b : List Char) (h : splitName a = splitName b) : a = b := by
  have h2 := joinName_splitName a
  rw [h, joinName_splitName b] at h2
  exact h2.symm

/-- `updateAt removeProp` keeps the name, left and right slots of the
node it is applied to. -/
theorem updateAt_removeProp_shape (rest : List (List Char)) :
    ∀ (nm : List Char) (pr : Option prop_info) (l c r : prop_bt),
      ∃ pr2 c2, updateAt removeProp rest (.node nm pr l c r) = .node nm pr2 l c2 r := by
  intro nm pr l c r
  cases rest with
  | nil => exact ⟨none, c, rfl⟩
  | cons seg rr =>
    by_cases hz : seg.length = 0
    · exact ⟨pr, c, by simp only [updateAt]; rw [if_pos hz]⟩
    · exact ⟨pr, updateBst seg (updateAt removeProp rr) c,
        by simp only [updateAt]; rw [if_neg hz]⟩

/-- Searching the rebuilt BST for the updated segment finds the image of
the original match. -/
theorem findBst_updateBst_self (seg : List Char) (F : prop_bt → prop_bt)
    (hF : ∀ (nm : List Char) (pr : Option prop_info) (l c r : prop_bt),
      ∃ pr2 c2, F (.node nm pr l c r) = .node nm pr2 l c2 r) :
    ∀ c : prop_bt, findBst seg (updateBst seg F c) = (findBst seg c).map F := by
  intro c
  induction c with
  | nil => rfl
  | node nm pr l c r ihl ihc ihr =>
    by_cases h0 : cmp_prop_name seg nm = 0
    · obtain ⟨pr2, c2, hFe⟩ := hF nm pr l c r
      have hL : updateBst seg F (.node nm pr l c r) = .node nm pr2 l c2 r := by
        simp only [updateBst]
        rw [if_pos h0, hFe]
      have hR : findBst seg (prop_bt.node nm pr l c r) = some (.node nm pr l c r) := by
        simp only [findBst]
        rw [if_pos h0]
      rw [hL, hR]
      have h2 : findBst seg (prop_bt.node nm pr2 l c2 r) = some (.node nm pr2 l c2 r) := by
        simp only [findBst]
        rw [if_pos h0]
      rw [h2, ← hFe]
      rfl
    · by_cases hlt : cmp_prop_name seg nm < 0
      · have hL : updateBst seg F (.node nm pr l c r) = .node nm pr (updateBst seg F l) c r := by
          simp only [updateBst]
          rw [if_neg h0, if_pos hlt]
        have h2 : findBst seg (prop_bt.node nm pr (updateBst seg F l) c r) =
            findBst seg (updateBst seg F l) := by
          simp only [findBst]
          rw [if_neg h0, if_pos hlt]
        have h3 : findBst seg (prop_bt.node nm pr l c r) = findBst seg l := by
          simp only [findBst]
          rw [if_neg h0, if_pos hlt]
        rw [hL, h2, h3, ihl]
      · have hL : updateBst seg F (.node nm pr l c r) = .node nm pr l c (updateBst seg F r) := by
          simp only [updateBst]
          rw [if_neg h0, if_neg hlt]
        have h2 : findBst seg (prop_bt.node nm pr l c (updateBst seg F r)) =
            findBst seg (updateBst seg F r) := by
          simp only [findBst]
          rw [if_neg h0, if_neg hlt]
        have h3 : findBst seg (prop_bt.node nm pr l c r) = findBst seg r := by
          simp only [findBst]
          rw [if_neg h0, if_neg hlt]
        rw [hL, h2, h3, ihr]

/-- A successful BST search returns a node. -/
theorem findBst_node (seg : List Char) : ∀ (c m : prop_bt), findBst seg c = some m →
    ∃ nm pr l cc r, m = prop_bt.node nm pr l cc r := by
  intro c
  induction c with
  | nil => intro m h; simp [findBst] at h
  | node nm pr l c r ihl ihc ihr =>
    intro m h
    simp only [findBst] at h
    by_cases h0 : cmp_prop_name seg nm = 0
    · rw [if_pos h0] at h
      exact ⟨nm, pr, l, c, r, (Option.some.inj h).symm⟩
    · rw [if_neg h0] at h
      by_cases hlt : cmp_prop_name seg nm < 0
      · rw [if_pos hlt] at h
        exact ihl m h
      · rw [if_neg hlt] at h
        exact ihr m h

/-- Searching the rebuilt BST for a different segment gives a node with
the same name, entry slot and children; only the sibling subtrees along
the rebuilt path may differ. -/
theorem findBst_updateBst_other (s2 seg : List Char) (F : prop_bt → prop_bt)
    (hF : ∀ (nm : List Char) (pr : Option prop_info) (l c r : prop_bt),
      ∃ pr2 c2, F (.node nm pr l c r) = .node nm pr2 l c2 r)
    (hne : s2 ≠ seg) :
    ∀ c : prop_bt,
      (findBst s2 c = none → findBst s2 (updateBst seg F c) = none) ∧
      (∀ (nm3 : List Char) (pr3 : Option prop_info) (l3 c3 r3 : prop_bt),
        findBst s2 c = some (.node nm3 pr3 l3 c3 r3) →
        ∃ l4 r4, findBst s2 (updateBst seg F c) = some (.node nm3 pr3 l4 c3 r4)) := by
  intro c
  induction c with
  | nil => exact ⟨fun _ => rfl, fun nm3 pr3 l3 c3 r3 h => by simp [findBst] at h⟩
  | node nm pr l c r ihl ihc ihr =>
    by_cases hseg0 : cmp_prop_name seg nm = 0
    · have hs2 : cmp_prop_name s2 nm ≠ 0 := by
        intro hc
        exact hne ((cmp_prop_name_eq _ _ hc).trans (cmp_prop_name_eq _ _ hseg0).symm)
      obtain ⟨pr2, c2, hFe⟩ := hF nm pr l c r
      have hL : updateBst seg F (.node nm pr l c r) = .node nm pr2 l c2 r := by
        simp only [updateBst]
        rw [if_pos hseg0, hFe]
      rw [hL]
      by_cases hlt : cmp_prop_name s2 nm < 0
      · have e1 : findBst s2 (prop_bt.node nm pr2 l c2 r) = findBst s2 l := by
          simp only [findBst]
          rw [if_neg hs2, if_pos hlt]
        have e2 : findBst s2 (prop_bt.node nm pr l c r) = findBst s2 l := by
          simp only [findBst]
          rw [if_neg hs2, if_pos hlt]
        rw [e1, e2]
        exact ⟨fun h => h, fun nm3 pr3 l3 c3 r3 h => ⟨l3, r3, h⟩⟩
      · have e1 : findBst s2 (prop_bt.node nm pr2 l c2 r) = findBst s2 r := by
          simp only [findBst]
          rw [if_neg hs2, if_neg hlt]
        have e2 : findBst s2 (prop_bt.node nm pr l c r) = findBst s2 r := by
          simp only [findBst]
          rw [if_neg hs2, if_neg hlt]
        rw [e1, e2]
        exact ⟨fun h => h, fun nm3 pr3 l3 c3 r3 h => ⟨l3, r3, h⟩⟩
    · by_cases hseglt : cmp_prop_name seg nm < 0
      · have hL : updateBst seg F (.node nm pr l c r) = .node nm pr (updateBst seg F l) c r := by
          simp only [updateBst]
          rw [if_neg hseg0, if_pos hseglt]
        rw [hL]
        by_cases h20 : cmp_prop_name s2 nm = 0
        · have e1 : findBst s2 (prop_bt.node nm pr (updateBst seg F l) c r) =
              some (.node nm pr (updateBst seg F l) c r) := by
            simp only [findBst]
            rw [if_pos h20]
          have e2 : findBst s2 (prop_bt.node nm pr l c r) = some (.node nm pr l c r) := by
            simp only [findBst]
            rw [if_pos h20]
          constructor
          · intro h
            rw [e2] at h
            cases h
          · intro nm3 pr3 l3 c3 r3 h
            rw [e2] at h
            simp only [Option.some.injEq, prop_bt.node.injEq] at h
            obtain ⟨e_nm, e_pr, e_l, e_c, e_r⟩ := h
            subst e_nm
            subst e_pr
            subst e_c
            exact ⟨updateBst seg F l, r, e1⟩
        · by_cases h2lt : cmp_prop_name s2 nm < 0
          · have e1 : findBst s2 (prop_bt.node nm pr (updateBst seg F l) c r) =
                findBst s2 (updateBst seg F l) := by
              simp only [findBst]
              rw [if_neg h20, if_pos h2lt]
            have e2 : findBst s2 (prop_bt.node nm pr l c r) = findBst s2 l := by
              simp only [findBst]
              rw [if_neg h20, if_pos h2lt]
            rw [e1, e2]
            exact ihl
          · have e1 : findBst s2 (prop_bt.node nm pr (updateBst seg F l) c r) =
                findBst s2 r := by
              simp only [findBst]
              rw [if_neg h20, if_neg h2lt]
            have e2 : findBst s2 (prop_bt.node nm pr l c r) = findBst s2 r := by
              simp only [findBst]
              rw [if_neg h20, if_neg h2lt]
            rw [e1, e2]
            exact ⟨fun h => h, fun nm3 pr3 l3 c3 r3 h => ⟨l3, r3, h⟩⟩
      · have hL : updateBst seg F (.node nm pr l c r) = .node nm pr l c (updateBst seg F r) := by
          simp only [updateBst]
          rw [if_neg hseg0, if_neg hseglt]
        rw [hL]
        by_cases h20 : cmp_prop_name s2 nm = 0
        · have e1 : findBst s2 (prop_bt.node nm pr l c (updateBst seg F r)) =
              some (.node nm pr l c (updateBst seg F r)) := by
            simp only [findBst]
            rw [if_pos h20]
          have e2 : findBst s2 (prop_bt.node nm pr l c r) = some (.node nm pr l c r) := by
            simp only [findBst]
            rw [if_pos h20]
          constructor
          · intro h
            rw [e2] at h
            cases h
          · intro nm3 pr3 l3 c3 r3 h
            rw [e2] at h
            simp only [Option.some.injEq, prop_bt.node.injEq] at h
            obtain ⟨e_nm, e_pr, e_l, e_c, e_r⟩ := h
            subst e_nm
            subst e_pr
            subst e_c
            exact ⟨l, updateBst seg F r, e1⟩
        · by_cases h2lt : cmp_prop_name s2 nm < 0
          · have e1 : findBst s2 (prop_bt.node nm pr l c (updateBst seg F r)) =
                findBst s2 l := by
              simp only [findBst]
              rw [if_neg h20, if_pos h2lt]
            have e2 : findBst s2 (prop_bt.node nm pr l c r) = findBst s2 l := by
              simp only [findBst]
              rw [if_neg h20, if_pos h2lt]
            rw [e1, e2]
            exact ⟨fun h => h, fun nm3 pr3 l3 c3 r3 h => ⟨l3, r3, h⟩⟩
          · have e1 : findBst s2 (prop_bt.node nm pr l c (updateBst seg F r)) =
                findBst s2 (updateBst seg F r) := by
              simp only [findBst]
              rw [if_neg h20, if_neg h2lt]
            have e2 : findBst s2 (prop_bt.node nm pr l c r) = findBst s2 r := by
              simp only [findBst]
              rw [if_neg h20, if_neg h2lt]
            rw [e1, e2]
            exact ihr

/-- `findPure` never looks at the left and right slots of the node it
starts from. -/
theorem findPure_lr (rest : List (List Char)) (nm : List Char)
    (pr : Option prop_info) (l c r l2 r2 : prop_bt) :
    findPure rest (.node nm pr l c r) = findPure rest (.node nm pr l2 c r2) := by
  cases rest <;> rfl

/-- An empty leading segment makes the pure lookup fail on any node. -/
theorem findPure_zero (seg : List Char) (rest : List (List Char))
    (nm : List Char) (pr : Option prop_info) (l c r : prop_bt)
    (hz : seg.length = 0) :
    findPure (seg :: rest) (.node nm pr l c r) = none := by
  simp only [findPure, navPure]
  rw [if_pos hz]

/-- After clearing the entry at the terminal node of `segs`, the pure
lookup of `segs` fails. -/
theorem findPure_updateAt_self : ∀ (segs : List (List Char)) (t : prop_bt),
    findPure segs (updateAt removeProp segs t) = none := by
  intro segs
  induction segs with
  | nil =>
    intro t
    cases t with
    | nil => rfl
    | node nm pr l c r => rfl
  | cons seg rest ih =>
    intro t
    cases t with
    | nil => rfl
    | node nm pr l c r =>
      by_cases hz : seg.length = 0
      · have hupd : updateAt removeProp (seg :: rest) (prop_bt.node nm pr l c r) =
            prop_bt.node nm pr l c r := by
          simp only [updateAt]
          rw [if_pos hz]
        rw [hupd, findPure_zero _ _ _ _ _ _ _ hz]
      · have hupd : updateAt removeProp (seg :: rest) (prop_bt.node nm pr l c r) =
            prop_bt.node nm pr l (updateBst seg (updateAt removeProp rest) c) r := by
          simp only [updateAt]
          rw [if_neg hz]
        rw [hupd, findPure_cons _ _ _ _ _ _ _ hz,
          findBst_updateBst_self seg (updateAt removeProp rest)
            (updateAt_removeProp_shape rest) c]
        cases hbst : findBst seg c with
        | none => rfl
        | some m =>
          simp only [Option.map]
          exact ih m

/-- Clearing the entry at the terminal node of `segsn` does not change
the pure lookup of any other segment list. -/
theorem findPure_updateAt_other : ∀ (segsn segsm : List (List Char)) (t : prop_bt),
    segsn ≠ segsm → findPure segsm (updateAt removeProp segsn t) = findPure segsm t := by
  intro segsn
  induction segsn with
  | nil =>
    intro segsm t hne
    cases segsm with
    | nil => exact absurd rfl hne
    | cons s rr =>
      cases t with
      | nil => rfl
      | node nm pr l c r => rfl
  | cons seg restn ih =>
    intro segsm t hne
    cases t with
    | nil => rfl
    | node nm pr l c r =>
      by_cases hz : seg.length = 0
      · have hupd : updateAt removeProp (seg :: restn) (prop_bt.node nm pr l c r) =
            prop_bt.node nm pr l c r := by
          simp only [updateAt]
          rw [if_pos hz]
        rw [hupd]
      · have hupd : updateAt removeProp (seg :: restn) (prop_bt.node nm pr l c r) =
            prop_bt.node nm pr l (updateBst seg (updateAt removeProp restn) c) r := by
          simp only [updateAt]
          rw [if_neg hz]
        rw [hupd]
        cases segsm with
        | nil => rfl
        | cons s2 restm =>
          by_cases hz2 : s2.length = 0
          · rw [findPure_zero _ _ _ _ _ _ _ hz2, findPure_zero _ _ _ _ _ _ _ hz2]
          · rw [findPure_cons _ _ _ _ _ _ _ hz2, findPure_cons _ _ _ _ _ _ _ hz2]
            by_cases hseq : s2 = seg
            · subst hseq
              have hne2 : restn ≠ restm := by
                intro he
                exact hne (by rw [he])
              rw [findBst_updateBst_self s2 (updateAt removeProp restn)
                (updateAt_removeProp_shape restn) c]
              cases hbst : findBst s2 c with
              | none => rfl
              | some m =>
                simp only [Option.map]
                exact ih restm m hne2
            · have hother := findBst_updateBst_other s2 seg (updateAt removeProp restn)
                (updateAt_removeProp_shape restn) hseq c
              cases hbst : findBst s2 c with
              | none => rw [hother.1 hbst]
              | some m =>
                obtain ⟨nm3, pr3, l3, c3, r3, hm⟩ := findBst_node s2 c m hbst
                subst hm
                obtain ⟨l4, r4, hbst2⟩ := hother.2 nm3 pr3 l3 c3 r3 hbst
                rw [hbst2]
                exact findPure_lr restm nm3 pr3 l4 c3 r4 l3 r3

/-! ## Prune lemmas for claim C3 -/

/-- A surviving pruned node keeps its name and entry slot. -/
theorem prune_some_shape (nm : List Char) (pr : Option prop_info) (l c r : prop_bt)
    (x : prop_bt) (h : prop_area.prune_trie (.node nm pr l c r) = some x) :
    ∃ X Y Z, x = prop_bt.node nm pr X Y Z := by
  simp only [prop_area.prune_trie] at h
  split at h
  · cases h
  · exact ⟨_, _, _, (Option.some.inj h).symm⟩

theorem prune_some_slots (nm : List Char) (pr : Option prop_info) (l c r x : prop_bt)
    (h : prop_area.prune_trie (.node nm pr l c r) = some x) :
    ∃ lp cp rp, x = .node nm pr lp cp rp ∧
      ((lp = .nil ∧ prop_area.prune_trie l = none) ∨ prop_area.prune_trie l = some lp) ∧
      ((cp = .nil ∧ prop_area.prune_trie c = none) ∨ prop_area.prune_trie c = some cp) ∧
      ((rp = .nil ∧ prop_area.prune_trie r = none) ∨ prop_area.prune_trie r = some rp) := by
  simp only [prop_area.prune_trie] at h
  repeat' split at h
  all_goals
    first
    | (refine ⟨_, _, _, (Option.some.inj h).symm, ?_, ?_, ?_⟩ <;>
        first
        | (right; assumption)
        | (left; refine ⟨rfl, ?_⟩;
           first
           | assumption
           | rfl))
    | cases h

theorem prune_ne_none_prop (nm : List Char) (i : prop_info) (l c r : prop_bt) :
    prop_area.prune_trie (.node nm (some i) l c r) ≠ none := by
  simp only [prop_area.prune_trie]
  simp

theorem prune_ne_none_children (nm : List Char) (pr : Option prop_info) (l r : prop_bt)
    (c c3 : prop_bt) (hc : prop_area.prune_trie c = some c3) :
    prop_area.prune_trie (.node nm pr l c r) ≠ none := by
  simp only [prop_area.prune_trie]
  cases c with
  | nil => simp [prop_area.prune_trie] at hc
  | node nmc prc lc cc rc => simp [hc]

theorem prune_ne_none_left (nm : List Char) (pr : Option prop_info) (c r : prop_bt)
    (l l3 : prop_bt) (hl : prop_area.prune_trie l = some l3) :
    prop_area.prune_trie (.node nm pr l c r) ≠ none := by
  simp only [prop_area.prune_trie]
  cases l with
  | nil => simp [prop_area.prune_trie] at hl
  | node nml prl ll cl rl => simp [hl]

theorem prune_ne_none_right (nm : List Char) (pr : Option prop_info) (l c : prop_bt)
    (r r3 : prop_bt) (hr : prop_area.prune_trie r = some r3) :
    prop_area.prune_trie (.node nm pr l c r) ≠ none := by
  simp only [prop_area.prune_trie]
  cases r with
  | nil => simp [prop_area.prune_trie] at hr
  | node nmr prr lr cr rr => simp [hr]

theorem prune_keep_children (nm : List Char) (pr : Option prop_info) (l r : prop_bt)
    (c c3 : prop_bt) (hc : prop_area.prune_trie c = some c3) :
    ∃ X Y, prop_area.prune_trie (.node nm pr l c r) = some (.node nm pr X c3 Y) := by
  rcases hx : prop_area.prune_trie (.node nm pr l c r) with _ | x
  · exact absurd hx (prune_ne_none_children nm pr l r c c3 hc)
  · obtain ⟨lp, cp, rp, hxe, _, hcp, _⟩ := prune_some_slots nm pr l c r x hx
    rcases hcp with ⟨_, hnone⟩ | hsome
    · rw [hc] at hnone
      cases hnone
    · rw [hc] at hsome
      have hcc := Option.some.inj hsome
      subst hcc
      exact ⟨lp, rp, by rw [hxe]⟩

theorem prune_keep_left (nm : List Char) (pr : Option prop_info) (c r : prop_bt)
    (l l3 : prop_bt) (hl : prop_area.prune_trie l = some l3) :
    ∃ Y Z, prop_area.prune_trie (.node nm pr l c r) = some (.node nm pr l3 Y Z) := by
  rcases hx : prop_area.prune_trie (.node nm pr l c r) with _ | x
  · exact absurd hx (prune_ne_none_left nm pr c r l l3 hl)
  · obtain ⟨lp, cp, rp, hxe, hlp, _, _⟩ := prune_some_slots nm pr l c r x hx
    rcases hlp with ⟨_, hnone⟩ | hsome
    · rw [hl] at hnone
      cases hnone
    · rw [hl] at hsome
      have hll := Option.some.inj hsome
      subst hll
      exact ⟨cp, rp, by rw [hxe]⟩

theorem prune_keep_right (nm : List Char) (pr : Option prop_info) (l c : prop_bt)
    (r r3 : prop_bt) (hr : prop_area.prune_trie r = some r3) :
    ∃ X Y, prop_area.prune_trie (.node nm pr l c r) = some (.node nm pr X Y r3) := by
  rcases hx : prop_area.prune_trie (.node nm pr l c r) with _ | x
  · exact absurd hx (prune_ne_none_right nm pr l c r r3 hr)
  · obtain ⟨lp, cp, rp, hxe, _, _, hrp⟩ := prune_some_slots nm pr l c r x hx
    rcases hrp with ⟨_, hnone⟩ | hsome
    · rw [hr] at hnone
      cases hnone
    · rw [hr] at hsome
      have hrr := Option.some.inj hsome
      subst hrr
      exact ⟨lp, cp, by rw [hxe]⟩

theorem prune_keep_prop (nm : List Char) (i : prop_info) (l c r : prop_bt) :
    ∃ X Y Z, prop_area.prune_trie (.node nm (some i) l c r) = some (.node nm (some i) X Y Z) := by
  rcases hx : prop_area.prune_trie (.node nm (some i) l c r) with _ | x
  · exact absurd hx (prune_ne_none_prop nm i l c r)
  · obtain ⟨X, Y, Z, hxe⟩ := prune_some_shape nm (some i) l c r x hx
    exact ⟨X, Y, Z, by rw [hxe]⟩

theorem findBst_size (seg : List Char) :
    ∀ (c m : prop_bt), findBst seg c = some m → sizeOf m ≤ sizeOf c := by
  intro c
  induction c with
  | nil => intro m h; simp [findBst] at h
  | node nm pr l c r ihl ihc ihr =>
    intro m h
    simp only [findBst] at h
    by_cases h0 : cmp_prop_name seg nm = 0
    · rw [if_pos h0] at h
      rw [← Option.some.inj h]
    · rw [if_neg h0] at h
      by_cases hlt : cmp_prop_name seg nm < 0
      · rw [if_pos hlt] at h
        have := ihl m h
        have hs : sizeOf l < sizeOf (prop_bt.node nm pr l c r) := by
          simp [prop_bt.node.sizeOf_spec] <;> omega
        omega
      · rw [if_neg hlt] at h
        have := ihr m h
        have hs : sizeOf r < sizeOf (prop_bt.node nm pr l c r) := by
          simp [prop_bt.node.sizeOf_spec] <;> omega
        omega

theorem prune_findBst (seg : List Char) :
    ∀ (c m m3 : prop_bt), findBst seg c = some m → prop_area.prune_trie m = some m3 →
      ∃ c3, prop_area.prune_trie c = some c3 ∧ findBst seg c3 = some m3 := by
  intro c
  induction c with
  | nil => intro m m3 h _; simp [findBst] at h
  | node nm pr l c r ihl ihc ihr =>
    intro m m3 h hm
    simp only [findBst] at h
    by_cases h0 : cmp_prop_name seg nm = 0
    · rw [if_pos h0] at h
      rw [← Option.some.inj h] at hm
      refine ⟨m3, hm, ?_⟩
      obtain ⟨X, Y, Z, hsh⟩ := prune_some_shape nm pr l c r m3 hm
      rw [hsh]
      simp only [findBst]
      rw [if_pos h0]
    · rw [if_neg h0] at h
      by_cases hlt : cmp_prop_name seg nm < 0
      · rw [if_pos hlt] at h
        obtain ⟨l3, hpl, hf3⟩ := ihl m m3 h hm
        obtain ⟨Y, Z, hkeep⟩ := prune_keep_left nm pr c r l l3 hpl
        refine ⟨.node nm pr l3 Y Z, hkeep, ?_⟩
        simp only [findBst]
        rw [if_neg h0, if_pos hlt]
        exact hf3
      · rw [if_neg hlt] at h
        obtain ⟨r3, hpr2, hf3⟩ := ihr m m3 h hm
        obtain ⟨X, Y, hkeep⟩ := prune_keep_right nm pr l c r r3 hpr2
        refine ⟨.node nm pr X Y r3, hkeep, ?_⟩
        simp only [findBst]
        rw [if_neg h0, if_neg hlt]
        exact hf3

theorem prune_preserves_findPure :
    ∀ (N : Nat) (t : prop_bt), sizeOf t < N →
      ∀ (segs : List (List Char)) (i : prop_info), findPure segs t = some i →
        ∃ t3, prop_area.prune_trie t = some t3 ∧ findPure segs t3 = some i := by
  intro N
  induction N with
  | zero => intro t ht; omega
  | succ n ihn =>
    intro t ht segs i hfp
    cases t with
    | nil =>
      exfalso
      cases segs with
      | nil => simp [findPure, navPure] at hfp
      | cons s rr => simp [findPure, navPure] at hfp
    | node nm pr l c r =>
      cases segs with
      | nil =>
        have hpr : pr = some i := hfp
        subst hpr
        obtain ⟨X, Y, Z, hkeep⟩ := prune_keep_prop nm i l c r
        exact ⟨.node nm (some i) X Y Z, hkeep, rfl⟩
      | cons seg rest =>
        by_cases hz : seg.length = 0
        · rw [findPure, navPure, if_pos hz] at hfp
          cases hfp
        · rw [findPure_cons _ _ _ _ _ _ _ hz] at hfp
          rcases hbst : findBst seg c with _ | m
          · rw [hbst] at hfp
            cases hfp
          · rw [hbst] at hfp
            have hszc : sizeOf c < sizeOf (prop_bt.node nm pr l c r) := by
              simp [prop_bt.node.sizeOf_spec] <;> omega
            have hszm : sizeOf m ≤ sizeOf c := findBst_size seg c m hbst
            obtain ⟨m3, hpm, hfm3⟩ := ihn m (by omega) rest i hfp
            obtain ⟨c3, hpc, hbst3⟩ := prune_findBst seg c m m3 hbst hpm
            obtain ⟨X, Y, hkeep⟩ := prune_keep_children nm pr l r c c3 hpc
            refine ⟨.node nm pr X c3 Y, hkeep, ?_⟩
            rw [findPure_cons _ _ _ _ _ _ _ hz, hbst3]
            exact hfm3

theorem prune_findBst_rev (seg : List Char) :
    ∀ (c c3 : prop_bt), prop_area.prune_trie c = some c3 →
      ∀ m3 : prop_bt, findBst seg c3 = some m3 →
        ∃ m, findBst seg c = some m ∧ prop_area.prune_trie m = some m3 := by
  intro c
  induction c with
  | nil => intro c3 h; simp [prop_area.prune_trie] at h
  | node nm pr l c r ihl ihc ihr =>
    intro c3 h m3 hf
    obtain ⟨lp, cp, rp, hc3, hlp, hcp, hrp⟩ := prune_some_slots nm pr l c r c3 h
    subst hc3
    simp only [findBst] at hf
    by_cases h0 : cmp_prop_name seg nm = 0
    · rw [if_pos h0] at hf
      refine ⟨.node nm pr l c r, ?_, ?_⟩
      · simp only [findBst]
        rw [if_pos h0]
      · rw [h, Option.some.inj hf]
    · rw [if_neg h0] at hf
      by_cases hlt : cmp_prop_name seg nm < 0
      · rw [if_pos hlt] at hf
        rcases hlp with ⟨hnil, _⟩ | hsome
        · subst hnil
          simp [findBst] at hf
        · obtain ⟨m, hfl, hpm⟩ := ihl lp hsome m3 hf
          refine ⟨m, ?_, hpm⟩
          simp only [findBst]
          rw [if_neg h0, if_pos hlt]
          exact hfl
      · rw [if_neg hlt] at hf
        rcases hrp with ⟨hnil, _⟩ | hsome
        · subst hnil
          simp [findBst] at hf
        · obtain ⟨m, hfr, hpm⟩ := ihr rp hsome m3 hf
          refine ⟨m, ?_, hpm⟩
          simp only [findBst]
          rw [if_neg h0, if_neg hlt]
          exact hfr

theorem prune_rev_findPure :
    ∀ (N : Nat) (t : prop_bt), sizeOf t < N →
      ∀ (t3 : prop_bt) (segs : List (List Char)) (i : prop_info),
        prop_area.prune_trie t = some t3 → findPure segs t3 = some i →
          findPure segs t = some i := by
  intro N
  induction N with
  | zero => intro t ht; omega
  | succ n ihn =>
    intro t ht t3 segs i hp hfp
    cases t with
    | nil => simp [prop_area.prune_trie] at hp
    | node nm pr l c r =>
      obtain ⟨lp, cp, rp, ht3, hlp, hcp, hrp⟩ := prune_some_slots nm pr l c r t3 hp
      subst ht3
      cases segs with
      | nil => exact hfp
      | cons seg rest =>
        by_cases hz : seg.length = 0
        · rw [findPure_zero _ _ _ _ _ _ _ hz] at hfp
          cases hfp
        · rw [findPure_cons _ _ _ _ _ _ _ hz] at hfp
          rcases hbst3 : findBst seg cp with _ | m3
          · rw [hbst3] at hfp
            cases hfp
          · rw [hbst3] at hfp
            rcases hcp with ⟨hnil, _⟩ | hsomec
            · subst hnil
              simp [findBst] at hbst3
            · obtain ⟨m, hbstc, hpm⟩ := prune_findBst_rev seg c cp hsomec m3 hbst3
              have hszc : sizeOf c < sizeOf (prop_bt.node nm pr l c r) := by
                simp [prop_bt.node.sizeOf_spec] <;> omega
              have hszm : sizeOf m ≤ sizeOf c := findBst_size seg c m hbstc
              have hrec := ihn m (by omega) m3 rest i hpm hfp
              rw [findPure_cons _ _ _ _ _ _ _ hz, hbstc]
              exact hrec

/-- Claim C3: for every store containing name `n` (witnessed by
`remove(n, prune := true)` succeeding), afterwards `find(n)` returns
nothing, and every other stored name `m ≠ n` — including names sharing a
dotted prefix with `n` — is still found with its entry unchanged. -/
theorem claim_C3_remove_prune (t t2 : prop_bt) (n m : List Char) (i : prop_info)
    (hrem : prop_area.remove t n true = (t2, true))
    (hm : prop_area.find t m = some i)
    (hne : m ≠ n) :
    prop_area.find t2 n = none ∧ prop_area.find t2 m = some i := by
  have hsegne : splitName n ≠ splitName m := by
    intro he
    exact hne (splitName_inj n m he).symm
  have hmC : findPure (splitName m) (updateAt removeProp (splitName n) t) = some i := by
    rw [findPure_updateAt_other (splitName n) (splitName m) t hsegne, ← find_eq_findPure]
    exact hm
  have hrc := remove_char t n true
  rw [hrem] at hrc
  rcases hnav : navPure (splitName n) t with _ | mm
  · simp only [hnav] at hrc
    simp at hrc
  · simp only [hnav] at hrc
    rcases hpo : propOf mm with _ | j
    · simp only [hpo] at hrc
      simp at hrc
    · simp only [hpo] at hrc
      rcases hpr : prop_area.prune_trie (updateAt removeProp (splitName n) t) with _ | t3
      · exfalso
        obtain ⟨t3', hpr', _⟩ := prune_preserves_findPure
          (sizeOf (updateAt removeProp (splitName n) t) + 1)
          (updateAt removeProp (splitName n) t) (by omega) (splitName m) i hmC
        rw [hpr] at hpr'
        cases hpr'
      · simp only [hpr] at hrc
        have ht2 : t2 = t3 := by simpa using congrArg Prod.fst hrc
        subst ht2
        constructor
        · rw [find_eq_findPure]
          rcases hfn : findPure (splitName n) t2 with _ | j2
          · rfl
          · exfalso
            have hback := prune_rev_findPure
              (sizeOf (updateAt removeProp (splitName n) t) + 1)
              (updateAt removeProp (splitName n) t) (by omega) t2 (splitName n) j2 hpr hfn
            rw [findPure_updateAt_self] at hback
            cases hback
        · rw [find_eq_findPure]
          obtain ⟨t3', hpr', hf'⟩ := prune_preserves_findPure
            (sizeOf (updateAt removeProp (splitName n) t) + 1)
            (updateAt removeProp (splitName n) t) (by omega) (splitName m) i hmC
          rw [hpr] at hpr'
          rw [Option.some.inj hpr']
          exact hf'

theorem claim_C3_remove_prune_witness :
    prop_area.remove c3t "a.b".toList true =
        ((prop_area.remove c3t "a.b".toList true).1, true) ∧
    prop_area.find c3t "a.c".toList = some c3piC ∧
    "a.c".toList ≠ "a.b".toList ∧
    (prop_area.find (prop_area.remove c3t "a.b".toList true).1 "a.b".toList = none ∧
     prop_area.find (prop_area.remove c3t "a.b".toList true).1 "a.c".toList = some c3piC) :=
  ⟨by decide, by decide, by decide,
    claim_C3_remove_prune c3t (prop_area.remove c3t "a.b".toList true).1
      "a.b".toList "a.c".toList c3piC (by decide) (by decide) (by decide)⟩
